import Mathlib

/-!
Verification of the chisel-releases-navigator aggregation pipeline.

The definitions below are shallow embeddings of the Python sources
`src/data_scraper/data_scraper.py` (namespace `DS`) and
`src/data_manager/sdf_checker.py` (namespace `DM`).  Python string
operations (`splitlines`, `strip`, substring `in`, `split(sep, 1)`,
`sorted`, `removeprefix`) are modelled first, faithfully to CPython
semantics on the Unicode code-point level.  Fallible Python code
(operations that can raise) is modelled with `Except String`; the error
strings mirror the Python exception classes but their exact wording is
ours.
-/

set_option maxHeartbeats 1000000

/-! ### Python string primitives -/

/-- Line-break characters recognised by Python `str.splitlines`. -/
def isLineBreakChar (c : Char) : Bool :=
  c.toNat == 0x0a || c.toNat == 0x0d || c.toNat == 0x0b || c.toNat == 0x0c ||
  c.toNat == 0x1c || c.toNat == 0x1d || c.toNat == 0x1e || c.toNat == 0x85 ||
  c.toNat == 0x2028 || c.toNat == 0x2029

/-- Worker for `pySplitlines`: accumulates the current line (reversed). -/
def splitlinesAux : List Char → List Char → List String
  | [], acc => if acc.isEmpty then [] else [String.mk acc.reverse]
  | '\r' :: '\n' :: rest, acc => String.mk acc.reverse :: splitlinesAux rest []
  | c :: rest, acc =>
    if isLineBreakChar c then String.mk acc.reverse :: splitlinesAux rest []
    else splitlinesAux rest (c :: acc)

/-- Python `str.splitlines`: splits at line breaks (CRLF counted once),
with no trailing empty line. -/
def pySplitlines (s : String) : List String :=
  splitlinesAux s.data []

/-- Characters Python treats as whitespace (`str.strip` / `str.isspace`). -/
def isPySpace (c : Char) : Bool :=
  (0x09 ≤ c.toNat && c.toNat ≤ 0x0d) || c.toNat == 0x20 ||
  (0x1c ≤ c.toNat && c.toNat ≤ 0x1f) || c.toNat == 0x85 || c.toNat == 0xa0 ||
  c.toNat == 0x1680 || (0x2000 ≤ c.toNat && c.toNat ≤ 0x200a) ||
  c.toNat == 0x2028 || c.toNat == 0x2029 || c.toNat == 0x202f ||
  c.toNat == 0x205f || c.toNat == 0x3000

/-- Python `str.strip()`: drop whitespace from both ends. -/
def pyStrip (s : String) : String :=
  String.mk (((s.data.dropWhile isPySpace).reverse.dropWhile isPySpace).reverse)

/-- Worker for `strContains`. -/
def containsSub (needle : List Char) : List Char → Bool
  | [] => needle.isEmpty
  | c :: t => needle.isPrefixOf (c :: t) || containsSub needle t

/-- Python substring test `sub in s`. -/
def strContains (s sub : String) : Bool :=
  containsSub sub.data s.data

/-- Python `s.split(sep, 1)` for a one-character separator: `none` when the
separator does not occur (Python returns a one-element list there). -/
def splitOnce (sep : Char) : List Char → Option (List Char × List Char)
  | [] => none
  | c :: t =>
    if c == sep then some ([], t)
    else (splitOnce sep t).map (fun p => (c :: p.1, p.2))

/-- Python `s.removeprefix(pre)`. -/
def pyRemovePre (pre s : String) : String :=
  if pre.data.isPrefixOf s.data then String.mk (s.data.drop pre.data.length) else s

/-- First-match association-list lookup, modelling Python `dict` access
(`d[k]` / `d.get(k)`); dict keys are unique, so first match is the match. -/
def lookupA {κ α : Type} [BEq κ] (l : List (κ × α)) (k : κ) : Option α :=
  (l.find? (fun p => p.1 == k)).map (fun p => p.2)

/-- Code-point lexicographic comparison of character lists — the order
Python uses to compare strings. -/
def pyLeChars : List Char → List Char → Bool
  | [], _ => true
  | _ :: _, [] => false
  | a :: as, b :: bs =>
    if a.toNat < b.toNat then true
    else if b.toNat < a.toNat then false
    else pyLeChars as bs

/-- Python string comparison `a <= b`. -/
def pyStrLe (a b : String) : Bool :=
  pyLeChars a.data b.data

instance : IsTotal String (fun a b => pyStrLe a b = true) := by
  constructor
  intro a b
  rcases a with ⟨as⟩
  rcases b with ⟨bs⟩
  show pyLeChars as bs = true ∨ pyLeChars bs as = true
  induction as generalizing bs with
  | nil => left; rfl
  | cons a as ih =>
    cases bs with
    | nil => right; rfl
    | cons b bs =>
      by_cases h1 : a.toNat < b.toNat
      · left; simp [pyLeChars, h1]
      · by_cases h2 : b.toNat < a.toNat
        · right; simp [pyLeChars, h2]
        · rcases ih bs with h | h
          · left; simpa [pyLeChars, h1, h2] using h
          · right; simpa [pyLeChars, h1, h2] using h

instance : IsTrans String (fun a b => pyStrLe a b = true) := by
  constructor
  intro a b c hab hbc
  rcases a with ⟨as⟩
  rcases b with ⟨bs⟩
  rcases c with ⟨cs⟩
  change pyLeChars as bs = true at hab
  change pyLeChars bs cs = true at hbc
  show pyLeChars as cs = true
  induction as generalizing bs cs with
  | nil => rfl
  | cons a as ih =>
    cases bs with
    | nil => simp [pyLeChars] at hab
    | cons b bs =>
      cases cs with
      | nil => simp [pyLeChars] at hbc
      | cons c cs =>
        simp only [pyLeChars] at hab hbc ⊢
        by_cases h1 : a.toNat < b.toNat
        · by_cases h2 : b.toNat < c.toNat
          · have hac : a.toNat < c.toNat := by omega
            simp [hac]
          · by_cases h4 : c.toNat < b.toNat
            · simp [h2, h4] at hbc
            · have hac : a.toNat < c.toNat := by omega
              simp [hac]
        · by_cases h3 : b.toNat < a.toNat
          · simp [h1, h3] at hab
          · have hab2 : pyLeChars as bs = true := by simpa [h1, h3] using hab
            by_cases h2 : b.toNat < c.toNat
            · have hac : a.toNat < c.toNat := by omega
              simp [hac]
            · by_cases h4 : c.toNat < b.toNat
              · simp [h2, h4] at hbc
              · have hbc2 : pyLeChars bs cs = true := by simpa [h2, h4] using hbc
                have hac : ¬ a.toNat < c.toNat := by omega
                have hca : ¬ c.toNat < a.toNat := by omega
                rw [if_neg hac, if_neg hca]
                exact ih bs cs hab2 hbc2

/-- Python `sorted` on a list of strings (code-point lexicographic). -/
def pySortedStr (l : List String) : List String :=
  List.insertionSort (fun a b => pyStrLe a b = true) l

/-- Python `names != sorted(names)` for string lists. -/
def pyNeSortedStr (l : List String) : Bool :=
  ! (l == pySortedStr l)

/-- Python `names != sorted(names)` for integer lists. -/
def pyNeSortedInt (l : List Int) : Bool :=
  ! (l == List.insertionSort (fun a b => a ≤ b) l)

deriving instance DecidableEq for Except

/-! ### Data model -/

/-- A parsed YAML document, as produced by `yaml.safe_load`, restricted to
string-keyed mappings (the shape of every slice-definition document; maps
with non-string keys are outside the modelled fragment). -/
inductive Yaml where
  | null : Yaml
  | bool (b : Bool) : Yaml
  | int (n : Int) : Yaml
  | str (s : String) : Yaml
  | list (xs : List Yaml) : Yaml
  | map (kvs : List (String × Yaml)) : Yaml

/-- A static-analysis note: the Python `dict` built by
`data_scraper.create_note`, with its fixed keys `note`, `text`, `line`. -/
structure Note where
  note : String
  text : Option String
  line : Option Int
deriving DecidableEq, Repr

/-- `data_scraper.create_note`. -/
def createNote (note : String) (text : Option String) (line : Option Int) : Note :=
  { note := note, text := text, line := line }

/-- An `UbuntuRelease` record (`data_scraper.UbuntuRelease`). -/
structure UbuntuRelease where
  version : String
  codename : String
  lts : Bool
  supported : Bool
  devel : Bool
deriving DecidableEq, Repr

/-- `UbuntuRelease.branch_name`. -/
def UbuntuRelease.branch_name (r : UbuntuRelease) : String :=
  "ubuntu-" ++ r.version

/-- A parsed binary package (`data_scraper.Package`); `component` and
`repo` are the enum values as strings, `sect` is the source field
`section` (a Lean keyword). -/
structure Package where
  name : String
  version : String
  release : UbuntuRelease
  component : String
  repo : String
  description : String
  sect : String
deriving DecidableEq, Repr

/-! ### Static analysis engine (`data_scraper.py`) -/

namespace DS

/-- `data_scraper.ARCHITECTURE_SIGNATURES` (a set in the source; list
order is irrelevant to the `any` it feeds). -/
def ARCHITECTURE_SIGNATURES : List String :=
  ["arm", "amd64", "x86", "aarch", "i386", "riscv", "ppc64", "s390x"]

/-- `data_scraper.check_missing_copyright`: `"copyright" not in
data["slices"]`.  Subscripting a non-map or a map without the key raises;
the Python `in` test works on maps (key test), strings (substring) and
lists (membership) and raises otherwise. -/
def check_missing_copyright (data : Yaml) : Except String (Option Note) :=
  match data with
  | .map kvs =>
    match lookupA kvs "slices" with
    | none => .error "KeyError: slices"
    | some v =>
      match v with
      | .map skvs =>
        .ok (if skvs.any (fun p => p.1 == "copyright") then none
             else some (createNote "missing copyright" none none))
      | .str s =>
        .ok (if strContains s "copyright" then none
             else some (createNote "missing copyright" none none))
      | .list xs =>
        .ok (if xs.any (fun y => match y with | .str s => s == "copyright" | _ => false) then none
             else some (createNote "missing copyright" none none))
      | _ => .error "TypeError: argument is not iterable"
  | _ => .error "TypeError: object is not subscriptable"

/-- `data_scraper.check_double_glob`: only the raw text is inspected. -/
def check_double_glob (text : String) : Option Note :=
  if strContains text "**" then some (createNote "double glob" none none) else none

/-- Loop of `data_scraper.check_excess_blank_lines`: count consecutive
blank lines, reset on non-blank, note at the first count above 2. -/
def blanksLoop : List String → Nat → Option Note
  | [], _ => none
  | line :: rest, blanks =>
    let blanks2 := if pyStrip line == "" then blanks + 1 else 0
    if blanks2 > 2 then some (createNote "excess blank lines" none none)
    else blanksLoop rest blanks2

/-- `data_scraper.check_excess_blank_lines`. -/
def check_excess_blank_lines (text : String) : Option Note :=
  blanksLoop (pySplitlines text) 0

/-- Loop of `data_scraper.check_architecture_comments`. -/
def archLoop : List String → Option Note
  | [] => none
  | line :: rest =>
    if strContains line "#" then
      let after := match splitOnce '#' line.data with
        | some p => String.mk p.2
        | none => ""
      if ARCHITECTURE_SIGNATURES.any (fun a => strContains after a) then
        some (createNote "architecture comments" none none)
      else archLoop rest
    else archLoop rest

/-- `data_scraper.check_architecture_comments`. -/
def check_architecture_comments (text : String) : Option Note :=
  archLoop (pySplitlines text)

/-- Python `names != sorted(names)` applied to an arbitrary decoded value
(the `essential` entry).  A string or a map never equals the list
`sorted` returns, so it always counts as unsorted; `sorted` raises on
non-iterables, and on lists we model the homogeneous string/int cases
(other element types are modelled as comparison errors). -/
def pyNeSorted (y : Yaml) : Except String Bool :=
  match y with
  | .list xs =>
    match yamlAllStr xs with
    | some ss => .ok (pyNeSortedStr ss)
    | none =>
      match yamlAllInt xs with
      | some ns => .ok (pyNeSortedInt ns)
      | none => .error "TypeError: unorderable element types"
  | .str _ => .ok true
  | .map _ => .ok true
  | _ => .error "TypeError: object is not iterable"
where
  yamlAllStr : List Yaml → Option (List String)
    | [] => some []
    | .str s :: rest => (yamlAllStr rest).map (fun t => s :: t)
    | _ => none
  yamlAllInt : List Yaml → Option (List Int)
    | [] => some []
    | .int n :: rest => (yamlAllInt rest).map (fun t => n :: t)
    | _ => none

/-- Body of the `data_scraper.check_unsorted_contents` loop for one slice
entry: `contents` keys first, then `essential`, stopping at the first
unsorted list (the `break`). -/
def sliceUnsorted (content : Yaml) : Except String Bool :=
  match content with
  | .map ckvs =>
    match (lookupA ckvs "contents").getD (Yaml.map []) with
    | .map m =>
      let contents_keys := m.map (fun p => p.1)
      if pyNeSortedStr contents_keys then .ok true
      else pyNeSorted ((lookupA ckvs "essential").getD (Yaml.list []))
    | _ => .error "AttributeError: object has no attribute keys"
  | _ => .error "AttributeError: object has no attribute get"

/-- Loop of `data_scraper.check_unsorted_contents` over the slice
entries, one note per offending entry. -/
def unsortedLoop : List (String × Yaml) → Except String (List Note)
  | [] => .ok []
  | (_, content) :: rest => do
    let b ← sliceUnsorted content
    let tail ← unsortedLoop rest
    .ok (if b then createNote "unsorted content" none none :: tail else tail)

/-- `data_scraper.check_unsorted_contents`. -/
def check_unsorted_contents (data_json : Yaml) : Except String (List Note) :=
  match data_json with
  | .map kvs =>
    match lookupA kvs "slices" with
    | none => .error "KeyError: slices"
    | some (.map skvs) => unsortedLoop skvs
    | some _ => .error "AttributeError: object has no attribute items"
  | _ => .error "TypeError: object is not subscriptable"

/-- Turn an optional note into the list fragment `check_sdf` appends. -/
def optToList (o : Option Note) : List Note :=
  match o with
  | some n => [n]
  | none => []

/-- `data_scraper.check_sdf`: run the five checks in source order,
propagating any exception one of them raises. -/
def check_sdf (data_json : Yaml) (text : String) : Except String (List Note) := do
  let n1 ← check_missing_copyright data_json
  let pure_notes :=
    optToList n1 ++ optToList (check_double_glob text) ++
    optToList (check_excess_blank_lines text) ++
    optToList (check_architecture_comments text)
  let us ← check_unsorted_contents data_json
  .ok (pure_notes ++ us)

/-- Per-release loop of `data_scraper._get_notes_by_release`, with the
decoder (`yaml.safe_load`) and the analysis engine as parameters.  A
decode failure records the single synthetic `invalid YAML` note and
continues; an engine exception propagates (the source has no handler
around `check_sdf`).  Packages whose engine result is empty are omitted
(`if notes:`). -/
def notesForSlices (engine : Yaml → String → Except String (List Note))
    (decode : String → Except String Yaml) :
    List (String × String) → Except String (List (String × List Note))
  | [] => .ok []
  | (package_name, slice_text) :: rest =>
    match decode slice_text with
    | .error e => do
      let tail ← notesForSlices engine decode rest
      .ok ((package_name, [createNote "invalid YAML" (some e) none]) :: tail)
    | .ok slice_json => do
      let notes ← engine slice_json slice_text
      let tail ← notesForSlices engine decode rest
      .ok (if notes.isEmpty then tail else (package_name, notes) :: tail)

/-- `data_scraper._get_notes_by_release`: releases with no noted package
are omitted (`if notes_by_package:`). -/
def getNotesByRelease (decode : String → Except String Yaml) :
    List (UbuntuRelease × List (String × String)) →
    Except String (List (UbuntuRelease × List (String × List Note)))
  | [] => .ok []
  | (release, slices) :: rest => do
    let nbp ← notesForSlices check_sdf decode slices
    let tail ← getNotesByRelease decode rest
    .ok (if nbp.isEmpty then tail else (release, nbp) :: tail)

end DS

/-! ### Manifest parsing (`data_scraper.Package.from_content_hunk`) -/

/-- The four mutable locals of `from_content_hunk` before the final
check: each is `None` until its key is seen, later occurrences
overwrite. -/
structure HunkState where
  name : Option String
  version : Option String
  description : Option String
  sect : Option String
deriving DecidableEq, Repr

namespace DS

/-- Line loop of `from_content_hunk`: split each line at the first `:`
(skipping lines without one), strip key and value, assign on the four
known keys. -/
def hunkFold : List String → HunkState → HunkState
  | [], st => st
  | line :: rest, st =>
    match splitOnce ':' line.data with
    | none => hunkFold rest st
    | some (k, v) =>
      let key := pyStrip (String.mk k)
      let value := pyStrip (String.mk v)
      let st2 :=
        if key == "Package" then { st with name := some value }
        else if key == "Version" then { st with version := some value }
        else if key == "Description" then { st with description := some value }
        else if key == "Section" then { st with sect := some value }
        else st
      hunkFold rest st2

/-- Python falsiness of an optional string: `None` and `""` are falsy. -/
def pyFalsyStr (o : Option String) : Bool :=
  match o with
  | none => true
  | some s => s == ""

/-- `data_scraper.Package.from_content_hunk`: `None` when any of the four
fields is falsy, else a `Package` with the `"<component>/"` prefix
stripped from the section. -/
def from_content_hunk (hunk : String) (release : UbuntuRelease)
    (component : String) (repo : String) : Option Package :=
  let st := hunkFold (pySplitlines hunk) ⟨none, none, none, none⟩
  if pyFalsyStr st.name || pyFalsyStr st.version ||
     pyFalsyStr st.description || pyFalsyStr st.sect then none
  else
    some ⟨st.name.getD "", st.version.getD "", release, component, repo,
          st.description.getD "",
          pyRemovePre (component ++ "/") (st.sect.getD "")⟩

/-- Stanza loop at the end of `data_scraper._get_packages`: split the
decompressed manifest on blank-line separators, skip stanzas without
`Package:`, and keep every parsed package (the source collects them into
a set; we keep the list of successful parses). -/
def packagesFromContent (content : String) (release : UbuntuRelease)
    (component : String) (repo : String) : List Package :=
  (content.splitOn "\n\n").filterMap (fun pkg_str =>
    if strContains pkg_str "Package:" then from_content_hunk pkg_str release component repo
    else none)

end DS

/-! ### Manifest fetch (`data_scraper._get_packages` retry loop)

The network is an oracle mapping each attempt number to the outcome of a
primary-host request and (if consulted) a fallback-host request.  The
gzip decompression is an external bijective codec and is modelled as the
identity on `content`. -/

/-- An HTTP response as the loop observes it. -/
structure Resp where
  status_code : Nat
  content : String
deriving DecidableEq, Repr

/-- Outcome of one `requests.get`: a response, or a raised
`requests.RequestException`. -/
inductive HttpOutcome where
  | resp (r : Resp)
  | exc (msg : String)
deriving DecidableEq, Repr

/-- Which host a request went to. -/
inductive Host where
  | primary
  | fallback
deriving DecidableEq, Repr

/-- Look up what the oracle answers for a (attempt, host) pair. -/
def outcomeAt (oracle : Nat → HttpOutcome × HttpOutcome) (p : Nat × Host) : HttpOutcome :=
  match p.2 with
  | .primary => (oracle p.1).1
  | .fallback => (oracle p.1).2

namespace DS

/-- The `for attempt in range(1, 4)` loop of `_get_packages`, carrying
the `response` and `last_error` locals and an instrumentation trace of
the requests actually issued.  A raised request keeps the previous
`response` value; a primary 404 consults the fallback host within the
same attempt; any 200 breaks immediately.  The `attempt < 3` test in the
source only selects between logging and `break`, and both end the last
iteration identically, so the loop is a plain recursion over the attempt
list. -/
def fetchGo (oracle : Nat → HttpOutcome × HttpOutcome) :
    List Nat → Option Resp → Option String → List (Nat × Host) →
    Option Resp × Option String × List (Nat × Host)
  | [], response, last_error, trace => (response, last_error, trace)
  | attempt :: rest, response, last_error, trace =>
    match (oracle attempt).1 with
    | .exc m => fetchGo oracle rest response (some m) (trace ++ [(attempt, Host.primary)])
    | .resp r =>
      let trace1 := trace ++ [(attempt, Host.primary)]
      if r.status_code == 200 then (some r, last_error, trace1)
      else if r.status_code == 404 then
        match (oracle attempt).2 with
        | .exc m => fetchGo oracle rest (some r) (some m) (trace1 ++ [(attempt, Host.fallback)])
        | .resp r2 =>
          let trace2 := trace1 ++ [(attempt, Host.fallback)]
          if r2.status_code == 200 then (some r2, last_error, trace2)
          else fetchGo oracle rest (some r2) last_error trace2
      else fetchGo oracle rest (some r) last_error trace1

/-- The whole retry loop of `_get_packages`, from fresh state. -/
def fetchLoop (oracle : Nat → HttpOutcome × HttpOutcome) :
    Option Resp × Option String × List (Nat × Host) :=
  fetchGo oracle [1, 2, 3] none none []

/-- Requests issued by the retry loop. -/
def fetchTrace (oracle : Nat → HttpOutcome × HttpOutcome) : List (Nat × Host) :=
  (fetchLoop oracle).2.2

/-- The two `raise` statements after the loop: no response at all fails
with the last exception, a non-200 response fails with its status. -/
def getPackagesResponse (oracle : Nat → HttpOutcome × HttpOutcome) : Except String Resp :=
  match fetchLoop oracle with
  | (none, last_error, _) =>
    .error ("Failed to download package list. Error: " ++ last_error.getD "None")
  | (some r, _, _) =>
    if r.status_code == 200 then .ok r
    else .error ("Failed to download package list. HTTP status code: " ++ toString r.status_code)

/-- `data_scraper._get_packages`: fetch with retry and fallback, then
parse the stanzas of the downloaded content. -/
def get_packages (oracle : Nat → HttpOutcome × HttpOutcome) (release : UbuntuRelease)
    (component : String) (repo : String) : Except String (List Package) :=
  (getPackagesResponse oracle).map (fun r => packagesFromContent r.content release component repo)

end DS

/-! ### Snapshot writer (`data_scraper._write_db` and friends)

The sqlite file is modelled as lists of rows per table.  The `slice`
columns `definition` and `notes` hold `json.dumps` of the decoded form
and the note list; serialization is injective on the values that occur,
so the model stores the structured values themselves. -/

/-- One row of the `slice` table. -/
structure SliceRow where
  branch : String
  package : String
  version : Option String
  component : Option String
  repo : Option String
  sect : Option String
  definition : Yaml
  notes : List Note

/-- One row of the `release` table. -/
structure ReleaseRow where
  version : String
  branch : Option String
  codename : String
  lts : Bool
  supported : Bool
  devel : Bool
deriving DecidableEq, Repr

/-- The four tables created by `init_db`. -/
structure DB where
  sliceRows : List SliceRow
  releaseRows : List ReleaseRow
  descRows : List (String × String)
  metaRows : List (String × String)

/-- The freshly created empty database (`db_path.unlink` + `init_db`). -/
def DB.empty : DB := ⟨[], [], [], []⟩

/-- Events on the sqlite connection, for the transaction-shape claims. -/
inductive Ev where
  | beginTx
  | insertRow
  | commitTx
deriving DecidableEq, Repr

namespace DS

/-- `data_scraper.insert_into_slice`: a plain `INSERT`. -/
def insert_into_slice (db : DB) (row : SliceRow) : DB :=
  { db with sliceRows := db.sliceRows ++ [row] }

/-- `data_scraper.insert_into_release`: branch is null for catalog-only
releases. -/
def insert_into_release (db : DB) (release : UbuntuRelease) (set_branch_to_null : Bool) : DB :=
  let branch := if set_branch_to_null then none else some release.branch_name
  { db with releaseRows := db.releaseRows ++
      [⟨release.version, branch, release.codename, release.lts, release.supported, release.devel⟩] }

/-- `data_scraper.insert_into_description`: `INSERT OR IGNORE` against
the `UNIQUE` package column — a later row with an existing package name
is silently dropped. -/
def insert_into_description (db : DB) (package : String) (description : String) : DB :=
  if db.descRows.any (fun p => p.1 == package) then db
  else { db with descRows := db.descRows ++ [(package, description)] }

/-- `data_scraper.insert_into_meta`. -/
def insert_into_meta (db : DB) (key value : String) : DB :=
  { db with metaRows := db.metaRows ++ [(key, value)] }

/-- The `if description: insert_into_description(...)` step of the
`_write_db` slice loop (`description` is `None` when no package info was
found, and the empty string is falsy). -/
def descStep (db : DB) (evs : List Ev) (package : String) (info : Option Package) :
    DB × List Ev :=
  match info with
  | some q =>
    if q.description == "" then (db, evs)
    else (insert_into_description db package q.description, evs ++ [Ev.insertRow])
  | none => (db, evs)

/-- Inner loop of `_write_db` over one release's slices.  Each slice text
is re-decoded with `yaml.safe_load` — *without* a handler, so a decode
failure here aborts the write with the rows inserted so far.  Package
metadata is joined when available, else the four package columns stay
null (and a warning is logged). -/
def writeSlicesLoop (decode : String → Except String Yaml) (release : UbuntuRelease)
    (notesFor : List (String × List Note)) (packagesFor : List (String × Package)) :
    List (String × String) → DB → List Ev → DB × List Ev × Option String
  | [], db, evs => (db, evs, none)
  | (package, slice_text) :: rest, db, evs =>
    match decode slice_text with
    | .error e => (db, evs, some e)
    | .ok slice_json =>
      let notes := (lookupA notesFor package).getD []
      let info := lookupA packagesFor package
      let db1 := insert_into_slice db
        ⟨release.branch_name, package,
         info.map (fun p => p.version), info.map (fun p => p.component),
         info.map (fun p => p.repo), info.map (fun p => p.sect),
         slice_json, notes⟩
      let next := descStep db1 (evs ++ [Ev.insertRow]) package info
      writeSlicesLoop decode release notesFor packagesFor rest next.1 next.2

/-- Outer loop of `_write_db` over the releases.  A release with no entry
in `notes_by_release` or `packages_by_release` is skipped whole (the
source logs `This should not happen. Skipping.` and `continue`s). -/
def writeReleasesLoop (decode : String → Except String Yaml)
    (notesBy : List (UbuntuRelease × List (String × List Note)))
    (packagesBy : List (UbuntuRelease × List (String × Package))) :
    List (UbuntuRelease × List (String × String)) → DB → List Ev →
    DB × List Ev × Option String
  | [], db, evs => (db, evs, none)
  | (release, slices) :: rest, db, evs =>
    match lookupA notesBy release with
    | none => writeReleasesLoop decode notesBy packagesBy rest db evs
    | some notesFor =>
      match lookupA packagesBy release with
      | none => writeReleasesLoop decode notesBy packagesBy rest db evs
      | some packagesFor =>
        match writeSlicesLoop decode release notesFor packagesFor slices db evs with
        | (db1, evs1, some e) => (db1, evs1, some e)
        | (db1, evs1, none) => writeReleasesLoop decode notesBy packagesBy rest db1 evs1

/-- The body `_write_db` runs on the open connection: the slice loop,
then one release row per processed release, then null-branch rows for
the remaining catalog releases, then the two metadata rows.  An
exception from the slice loop propagates immediately. -/
def write_db_body (decode : String → Except String Yaml)
    (slicesBy : List (UbuntuRelease × List (String × String)))
    (notesBy : List (UbuntuRelease × List (String × List Note)))
    (packagesBy : List (UbuntuRelease × List (String × Package)))
    (allReleases : List UbuntuRelease) (now url : String) (db : DB) :
    DB × List Ev × Option String :=
  match writeReleasesLoop decode notesBy packagesBy slicesBy db [] with
  | (db1, evs1, some e) => (db1, evs1, some e)
  | (db1, evs1, none) =>
    let s2 := slicesBy.foldl
      (fun (acc : DB × List Ev) rs => (insert_into_release acc.1 rs.1 false, acc.2 ++ [Ev.insertRow]))
      (db1, evs1)
    let s3 := allReleases.foldl
      (fun (acc : DB × List Ev) release =>
        if slicesBy.any (fun rs => rs.1 == release) then acc
        else (insert_into_release acc.1 release true, acc.2 ++ [Ev.insertRow]))
      s2
    let db4 := insert_into_meta s3.1 "last_update" now
    let db5 := insert_into_meta db4 "chisel_releases_url" url
    (db5, s3.2 ++ [Ev.insertRow, Ev.insertRow], none)

/-- `data_scraper.db_connection`: open a connection on the fresh file,
`BEGIN`, run the body, and — in the `finally` block — commit and close
*whether or not the body raised*.  The returned `DB` is therefore the
committed file content in both cases. -/
def db_connection_run (body : DB → DB × List Ev × Option String) :
    DB × Option String × List Ev :=
  let r := body DB.empty
  (r.1, r.2.2, Ev.beginTx :: r.2.1 ++ [Ev.commitTx])

/-- `data_scraper._write_db`: unlink any existing file, then run the
write inside `db_connection`. -/
def write_db (decode : String → Except String Yaml)
    (slicesBy : List (UbuntuRelease × List (String × String)))
    (notesBy : List (UbuntuRelease × List (String × List Note)))
    (packagesBy : List (UbuntuRelease × List (String × Package)))
    (allReleases : List UbuntuRelease) (now url : String) :
    DB × Option String × List Ev :=
  db_connection_run (write_db_body decode slicesBy notesBy packagesBy allReleases now url)

end DS

/-! ### The `data_manager/sdf_checker.py` revision -/

/-- A warning dictionary built by `sdf_checker.create_warning` (this
revision keys it `warning`, not `note`). -/
structure Warning where
  warning : String
  text : Option String
  line : Option Int
deriving DecidableEq, Repr

/-- `sdf_checker.create_warning`. -/
def create_warning (w : String) (text : Option String) (line : Option Int) : Warning :=
  ⟨w, text, line⟩

namespace DM

/-- Key loop of `sdf_checker.check_double_glob`: one warning per
content-path key containing `**`. -/
def globKeysLoop : List (String × Yaml) → Except String (List Warning)
  | [] => .ok []
  | (_, content) :: rest =>
    match content with
    | .map ckvs =>
      match (lookupA ckvs "contents").getD (Yaml.map []) with
      | .map m => do
        let ws := (m.map (fun p => p.1)).filterMap (fun path =>
          if strContains path "**" then some (create_warning "double glob" none none) else none)
        let tail ← globKeysLoop rest
        .ok (ws ++ tail)
      | _ => .error "AttributeError: object has no attribute keys"
    | _ => .error "AttributeError: object has no attribute get"

/-- `sdf_checker.check_double_glob`: a warning for `**` in the raw text,
plus one per content-path key containing `**`. -/
def check_double_glob (data_json : Yaml) (sdf_text : String) : Except String (List Warning) :=
  let head := if strContains sdf_text "**" then [create_warning "double glob" none none] else []
  match data_json with
  | .map kvs =>
    match lookupA kvs "slices" with
    | none => .error "KeyError: slices"
    | some (.map skvs) => (globKeysLoop skvs).map (fun t => head ++ t)
    | some _ => .error "AttributeError: object has no attribute items"
  | _ => .error "TypeError: object is not subscriptable"

end DM

/-! ### Specification-side definitions

These express the spec's wording independently of the loop structure of
the code; the theorems below relate them to the embedded functions. -/

/-- A blank line in the spec's sense: only whitespace. -/
def blankB (l : String) : Bool :=
  l.data.all isPySpace

/-- The spec's "three or more consecutive blank lines" over the lines of
the raw text. -/
def hasThreeBlank (text : String) : Prop :=
  ∃ pre a b c suf, pySplitlines text = pre ++ a :: b :: c :: suf ∧
    blankB a = true ∧ blankB b = true ∧ blankB c = true

/-- Intermediate invariant for the blank-line counter: either an
all-blank prefix pushes the carried count to 3, or three consecutive
blank lines occur somewhere. -/
def blanksDisj (lines : List String) (k : Nat) : Prop :=
  (∃ p q, lines = p ++ q ∧ p ≠ [] ∧ (∀ l ∈ p, blankB l = true) ∧ 3 ≤ k + p.length) ∨
  (∃ pre a b c suf, lines = pre ++ a :: b :: c :: suf ∧
    blankB a = true ∧ blankB b = true ∧ blankB c = true)

/-- Number of notes of a given kind. -/
def countNote (notes : List Note) (k : String) : Nat :=
  notes.countP (fun n => n.note == k)

/-- A slice-definition document of the shape every check in the engine
assumes: a map with a `slices` map whose entries are maps, `contents`
absent or a map, `essential` absent or a list of strings. -/
def wellFormedEntry (content : Yaml) : Bool :=
  match content with
  | .map ckvs =>
    (match lookupA ckvs "contents" with
     | none => true
     | some (.map _) => true
     | some _ => false) &&
    (match lookupA ckvs "essential" with
     | none => true
     | some (.list xs) => xs.all (fun y => match y with | .str _ => true | _ => false)
     | some _ => false)
  | _ => false

/-- Well-formedness of a whole decoded slice definition. -/
def wellFormedSDF (pf : Yaml) : Bool :=
  match pf with
  | .map kvs =>
    match lookupA kvs "slices" with
    | some (.map skvs) => skvs.all (fun p => wellFormedEntry p.2)
    | _ => false
  | _ => false

/-- The slice entries of a decoded definition (empty off shape). -/
def slicesOf (pf : Yaml) : List (String × Yaml) :=
  match pf with
  | .map kvs =>
    match lookupA kvs "slices" with
    | some (.map skvs) => skvs
    | _ => []
  | _ => []

/-- The content-path keys of one slice entry. -/
def contentsKeysOf (content : Yaml) : List String :=
  match content with
  | .map ckvs =>
    match (lookupA ckvs "contents").getD (Yaml.map []) with
    | .map m => m.map (fun p => p.1)
    | _ => []
  | _ => []

/-- The `essential` strings of one slice entry. -/
def essentialOf (content : Yaml) : List String :=
  match content with
  | .map ckvs =>
    match (lookupA ckvs "essential").getD (Yaml.list []) with
    | .list xs => xs.filterMap (fun y => match y with | .str s => some s | _ => none)
    | _ => []
  | _ => []

/-- The values carried by all lines of a stanza whose (stripped) key is
`key`, in order — the spec-side reading of an RFC822 field. -/
def fieldValues (hunk : String) (key : String) : List String :=
  (pySplitlines hunk).filterMap (fun line =>
    match splitOnce ':' line.data with
    | none => none
    | some (k, v) =>
      if pyStrip (String.mk k) == key then some (pyStrip (String.mk v)) else none)

/-- The last value a stanza gives for a field, if any. -/
def lastField (hunk : String) (key : String) : Option String :=
  (fieldValues hunk key).getLast?

/-! ### Concrete inputs used by the claim scenarios -/

/-- A release record used by the concrete scenarios. -/
def relNoble : UbuntuRelease := ⟨"24.04", "Noble Numbat", true, true, false⟩

/-- A second release record used by the concrete scenarios. -/
def relJammy : UbuntuRelease := ⟨"22.04", "Jammy Jellyfish", true, true, false⟩

/-- The parsed form of `c9Text` (its structural decoding, key order as in
the document). -/
def c9Yaml : Yaml :=
  Yaml.map [("slices", Yaml.map [("foo", Yaml.map
    [("contents", Yaml.map [("/b", Yaml.map []), ("/a", Yaml.map [])])])])]

/-- The spec scenario slice text with unsorted contents keys. -/
def c9Text : String :=
  "slices:\n  foo:\n    contents:\n      /b: \x7b\x7d\n      /a: \x7b\x7d\n"

/-- Decoded slice definition whose content key `/a**` holds a double glob
that the raw text does not (the key can be written with YAML escapes,
e.g. `"/a\x2a\x2a"`, so the text need not contain `**`). -/
def c6Yaml : Yaml :=
  Yaml.map [("slices", Yaml.map [("foo", Yaml.map
    [("contents", Yaml.map [("/a**", Yaml.map [])])])])]

/-- Raw text without a double glob for the `c6Yaml` scenario. -/
def c6Text : String := "slices: x"

/-- A clean slice definition: has a `copyright` slice, sorted contents,
no globs, no blank-line or comment findings — the engine returns no
notes for it. -/
def cleanYaml : Yaml :=
  Yaml.map [("slices", Yaml.map [("copyright", Yaml.map [])])]

/-- Raw text of the clean slice definition. -/
def cleanText : String := "slices:\n  copyright: \x7b\x7d\n"

/-- Decoder oracle for the C1 scenario: the clean text decodes fine. -/
def c1decode : String → Except String Yaml := fun _ => .ok cleanYaml

/-- The C1 run: one release, one clean slice, package map present. -/
def c1run : DB × Option String × List Ev :=
  DS.write_db c1decode [(relNoble, [("pkg", cleanText)])] [] [(relNoble, [])]
    [relNoble] "2026-01-01T00:00:00" "https://github.com/canonical/chisel-releases"

/-- A decoded form for the valid slice of the C2 scenario. -/
def c2Yaml : Yaml :=
  Yaml.map [("slices", Yaml.map [("foo", Yaml.map [])])]

/-- Decoder oracle for the C2 scenario: `"good"` decodes, `"bad"` raises
(as `yaml.safe_load` does on malformed text). -/
def c2decode : String → Except String Yaml := fun t =>
  if t == "good" then .ok c2Yaml else .error "mapping values are not allowed here"

/-- The C2 slice sets: a valid slice followed by a malformed one. -/
def c2slices : List (UbuntuRelease × List (String × String)) :=
  [(relNoble, [("a", "good"), ("b", "bad")])]

/-- The notes the pipeline's analysis phase produces for `c2slices`. -/
def c2notes : List (UbuntuRelease × List (String × List Note)) :=
  [(relNoble,
    [("a", [createNote "missing copyright" none none]),
     ("b", [createNote "invalid YAML" (some "mapping values are not allowed here") none])])]

/-- The C2 run: the malformed slice makes `_write_db` raise mid-write. -/
def c2run : DB × Option String × List Ev :=
  DS.write_db c2decode c2slices c2notes [(relNoble, [])] [relNoble]
    "2026-01-01T00:00:00" "https://github.com/canonical/chisel-releases"

/-- Package metadata for the C10 scenario: the same package name carries
different descriptions in two releases. -/
def c10pkgA : Package := ⟨"pkg", "1.0", relJammy, "main", "", "first description", "net"⟩

/-- The later, conflicting metadata for the same package name. -/
def c10pkgB : Package := ⟨"pkg", "2.0", relNoble, "main", "", "second description", "net"⟩

/-- The C10 run: two releases, same package name, different
descriptions. -/
def c10run : DB × Option String × List Ev :=
  DS.write_db c2decode
    [(relJammy, [("pkg", "good")]), (relNoble, [("pkg", "good")])]
    [(relJammy, [("pkg", [createNote "missing copyright" none none])]),
     (relNoble, [("pkg", [createNote "missing copyright" none none])])]
    [(relJammy, [("pkg", c10pkgA)]), (relNoble, [("pkg", c10pkgB)])]
    [relJammy, relNoble] "2026-01-01T00:00:00" "u"

/-- The stanza of the C7 counterexample: all four fields occur, but the
`Package:` value is empty. -/
def c7hunk : String := "Package:\nVersion: 1.0\nDescription: d\nSection: utils"

/-- A complete stanza whose section has a component prefix. -/
def c7goodHunk : String := "Package: foo\nVersion: 1.0\nDescription: d\nSection: main/utils"

/-- Oracle for the C4 scenario: primary answers 404 on the first
attempt, the fallback host answers 200. -/
def c4oracle : Nat → HttpOutcome × HttpOutcome := fun a =>
  if a == 1 then (HttpOutcome.resp ⟨404, "primary content"⟩, HttpOutcome.resp ⟨200, "fallback content"⟩)
  else (HttpOutcome.exc "unreachable", HttpOutcome.exc "unreachable")

/-! ## Theorems -/

/-! ### Generic helper lemmas -/

/-- Python `line.strip() == ""` is the spec's blank-line test. -/
theorem pyStrip_eq_empty (l : String) : (pyStrip l == "") = blankB l := by
  have key : pyStrip l = "" ↔ ∀ c ∈ l.data, isPySpace c = true := by
    unfold pyStrip
    constructor
    · intro h c hc
      have hdata : (((l.data.dropWhile isPySpace).reverse.dropWhile isPySpace).reverse) = [] := by
        have h2 := congrArg String.data h
        simpa using h2
      rw [List.reverse_eq_nil_iff, List.dropWhile_eq_nil_iff] at hdata
      by_cases hmem : c ∈ l.data.dropWhile isPySpace
      · exact hdata c (List.mem_reverse.mpr hmem)
      · have hc2 : c ∈ l.data.takeWhile isPySpace := by
          have hsplit := List.takeWhile_append_dropWhile (p := isPySpace) (l := l.data)
          rw [← hsplit] at hc
          rcases List.mem_append.mp hc with h1 | h2
          · exact h1
          · exact absurd h2 hmem
        exact List.mem_takeWhile_imp hc2
    · intro h
      have h1 : l.data.dropWhile isPySpace = [] :=
        List.dropWhile_eq_nil_iff.mpr (fun x hx => h x hx)
      simp [h1]
  unfold blankB
  cases hb : l.data.all isPySpace with
  | true =>
    have : pyStrip l = "" := key.mpr (by simpa [List.all_eq_true] using hb)
    simp [this]
  | false =>
    have : ¬ pyStrip l = "" := by
      intro hh
      have := key.mp hh
      rw [← List.all_eq_true (p := isPySpace)] at this
      · simp [this] at hb
    simpa using this

/-- Python `names != sorted(names)` detects exactly the non-sorted string
lists. -/
theorem ne_sorted_iff (l : List String) :
    pyNeSortedStr l = true ↔ ¬ List.Sorted (fun a b : String => pyStrLe a b = true) l := by
  have h1 : pyNeSortedStr l = true ↔ l ≠ pySortedStr l := by
    unfold pyNeSortedStr
    rw [Bool.not_eq_true', beq_eq_false_iff_ne]
  rw [h1]
  unfold pySortedStr
  constructor
  · intro hne hs
    exact hne (hs.insertionSort_eq).symm
  · intro hns heq
    apply hns
    have := List.sorted_insertionSort (fun a b : String => pyStrLe a b = true) l
    rwa [← heq] at this

/-- The note a successful `check_missing_copyright` can produce. -/
theorem check_missing_copyright_note (pf : Yaml) (n : Note)
    (h : DS.check_missing_copyright pf = .ok (some n)) : n.note = "missing copyright" := by
  unfold DS.check_missing_copyright at h
  repeat' split at h
  all_goals try simp_all [createNote]
  all_goals (subst h; rfl)

/-- Every note `unsortedLoop` produces is an `unsorted content` note. -/
theorem unsortedLoop_notes (skvs : List (String × Yaml)) (ns : List Note)
    (h : DS.unsortedLoop skvs = .ok ns) : ∀ n ∈ ns, n.note = "unsorted content" := by
  induction skvs generalizing ns with
  | nil =>
    unfold DS.unsortedLoop at h
    cases h
    simp
  | cons p rest ih =>
    rw [DS.unsortedLoop] at h
    cases hs : DS.sliceUnsorted p.2 with
    | error e => rw [hs] at h; simp [Bind.bind, Except.bind] at h
    | ok b =>
      rw [hs] at h
      cases ht : DS.unsortedLoop rest with
      | error e => rw [ht] at h; simp [Bind.bind, Except.bind] at h
      | ok tail =>
        rw [ht] at h
        simp only [Bind.bind, Except.bind, pure, Except.pure, Except.ok.injEq] at h
        subst h
        intro n hn
        by_cases hb : b = true
        · simp only [hb, if_pos] at hn
          rcases List.mem_cons.mp hn with h1 | h2
          · subst h1; rfl
          · exact ih tail ht n h2
        · simp only [hb, if_neg, if_false, Bool.false_eq_true] at hn
          exact ih tail ht n hn

/-- Decomposition of a successful `check_sdf` run into its five checks. -/
theorem check_sdf_parts (pf : Yaml) (text : String) (notes : List Note)
    (h : DS.check_sdf pf text = .ok notes) :
    ∃ mc us, DS.check_missing_copyright pf = .ok mc ∧
      DS.check_unsorted_contents pf = .ok us ∧
      notes = DS.optToList mc ++ DS.optToList (DS.check_double_glob text) ++
        DS.optToList (DS.check_excess_blank_lines text) ++
        DS.optToList (DS.check_architecture_comments text) ++ us := by
  unfold DS.check_sdf at h
  cases hmc : DS.check_missing_copyright pf with
  | error e => rw [hmc] at h; simp [Bind.bind, Except.bind] at h
  | ok mc =>
    rw [hmc] at h
    cases hus : DS.check_unsorted_contents pf with
    | error e => rw [hus] at h; simp [Bind.bind, Except.bind] at h
    | ok us =>
      rw [hus] at h
      simp only [Bind.bind, Except.bind, pure, Except.pure, Except.ok.injEq] at h
      exact ⟨mc, us, rfl, rfl, h.symm⟩

/-- On a list of string scalars, the nested string-extraction of
`pyNeSorted` succeeds and returns exactly those strings. -/
theorem yamlAllStr_of_all (xs : List Yaml)
    (h : xs.all (fun y => match y with | .str _ => true | _ => false) = true) :
    DS.pyNeSorted.yamlAllStr xs =
      some (xs.filterMap (fun y => match y with | .str s => some s | _ => none)) := by
  induction xs with
  | nil => rfl
  | cons y rest ih =>
    simp only [List.all_cons, Bool.and_eq_true] at h
    cases y <;> simp_all [DS.pyNeSorted.yamlAllStr, List.filterMap_cons]

/-- An empty string list counts as sorted. -/
theorem pyNeSortedStr_nil : pyNeSortedStr [] = false := rfl

/-- `sorted` on the default empty `essential` list. -/
theorem pyNeSorted_nil : DS.pyNeSorted (Yaml.list []) = .ok false := rfl

/-- `pyNeSorted` on a list of string scalars computes the string test. -/
theorem pyNeSorted_strings (xs : List Yaml)
    (h : xs.all (fun y => match y with | .str _ => true | _ => false) = true) :
    DS.pyNeSorted (Yaml.list xs) =
      .ok (pyNeSortedStr (xs.filterMap (fun y => match y with | .str s => some s | _ => none))) := by
  simp only [DS.pyNeSorted, yamlAllStr_of_all xs h]

/-- On a well-formed slice entry, the per-entry unsorted check computes
the disjunction of the two spec-side sortedness tests. -/
theorem sliceUnsorted_wf (content : Yaml) (h : wellFormedEntry content = true) :
    DS.sliceUnsorted content =
      .ok (pyNeSortedStr (contentsKeysOf content) || pyNeSortedStr (essentialOf content)) := by
  cases content with
  | null => simp [wellFormedEntry] at h
  | bool b => simp [wellFormedEntry] at h
  | int n => simp [wellFormedEntry] at h
  | str s => simp [wellFormedEntry] at h
  | list xs => simp [wellFormedEntry] at h
  | map ckvs =>
    unfold wellFormedEntry at h
    rw [Bool.and_eq_true] at h
    obtain ⟨hc, he⟩ := h
    simp only [DS.sliceUnsorted, contentsKeysOf, essentialOf]
    cases hcl : lookupA ckvs "contents" with
    | none =>
      simp only [hcl, Option.getD_none]
      cases hel : lookupA ckvs "essential" with
      | none =>
        simp only [hel, Option.getD_none, List.map_nil, List.filterMap_nil,
          pyNeSortedStr_nil, pyNeSorted_nil]
        simp
      | some ev =>
        rw [hel] at he
        cases ev with
        | list xs =>
          simp only [hel, Option.getD_some, List.map_nil, pyNeSortedStr_nil,
            Bool.false_eq_true, if_false, Bool.false_or, pyNeSorted_strings xs he]
        | null => simp at he
        | bool b => simp at he
        | int n => simp at he
        | str s => simp at he
        | map m => simp at he
    | some cv =>
      rw [hcl] at hc
      cases cv with
      | map m =>
        simp only [hcl, Option.getD_some]
        cases hel : lookupA ckvs "essential" with
        | none =>
          simp only [hel, Option.getD_none, List.filterMap_nil, pyNeSortedStr_nil,
            Bool.or_false, pyNeSorted_nil]
          by_cases hk : pyNeSortedStr (List.map (fun p => p.1) m) = true
          · simp [hk]
          · simp only [Bool.not_eq_true] at hk
            simp [hk]
        | some ev =>
          rw [hel] at he
          cases ev with
          | list xs =>
            simp only [hel, Option.getD_some, pyNeSorted_strings xs he]
            by_cases hk : pyNeSortedStr (List.map (fun p => p.1) m) = true
            · simp [hk]
            · simp only [Bool.not_eq_true] at hk
              simp [hk]
          | null => simp at he
          | bool b => simp at he
          | int n => simp at he
          | str s => simp at he
          | map mm => simp at he
      | null => simp at hc
      | bool b => simp at hc
      | int n => simp at hc
      | str s => simp at hc
      | list xs => simp at hc

/-- On well-formed entries, the unsorted-contents loop emits exactly one
note per entry whose contents keys or essential list are unsorted. -/
theorem unsortedLoop_wf (skvs : List (String × Yaml))
    (h : skvs.all (fun p => wellFormedEntry p.2) = true) :
    DS.unsortedLoop skvs = .ok (skvs.filterMap (fun p =>
      if pyNeSortedStr (contentsKeysOf p.2) || pyNeSortedStr (essentialOf p.2) then
        some (createNote "unsorted content" none none)
      else none)) := by
  induction skvs with
  | nil => rfl
  | cons p rest ih =>
    simp only [List.all_cons, Bool.and_eq_true] at h
    obtain ⟨hp, hrest⟩ := h
    rw [DS.unsortedLoop, sliceUnsorted_wf p.2 hp, ih hrest]
    simp only [Bind.bind, Except.bind, pure, Except.pure, List.filterMap_cons]
    by_cases hb : (pyNeSortedStr (contentsKeysOf p.2) || pyNeSortedStr (essentialOf p.2)) = true
    · simp [hb]
    · simp only [Bool.not_eq_true] at hb
      simp [hb]

/-- On a well-formed definition, the unsorted-contents check succeeds
and emits one note per offending slice entry. -/
theorem check_unsorted_contents_wf (pf : Yaml) (h : wellFormedSDF pf = true) :
    DS.check_unsorted_contents pf = .ok ((slicesOf pf).filterMap (fun p =>
      if pyNeSortedStr (contentsKeysOf p.2) || pyNeSortedStr (essentialOf p.2) then
        some (createNote "unsorted content" none none)
      else none)) := by
  cases pf with
  | null => simp [wellFormedSDF] at h
  | bool b => simp [wellFormedSDF] at h
  | int n => simp [wellFormedSDF] at h
  | str s => simp [wellFormedSDF] at h
  | list xs => simp [wellFormedSDF] at h
  | map kvs =>
    simp only [wellFormedSDF] at h
    cases hsl : lookupA kvs "slices" with
    | none => rw [hsl] at h; simp at h
    | some v =>
      rw [hsl] at h
      cases v with
      | map skvs =>
        simp only [DS.check_unsorted_contents, slicesOf, hsl]
        exact unsortedLoop_wf skvs h
      | null => simp at h
      | bool b => simp at h
      | int n => simp at h
      | str s => simp at h
      | list xs => simp at h

/-- On a well-formed definition, the missing-copyright check succeeds
and tests key membership in the slices map. -/
theorem check_missing_copyright_wf (pf : Yaml) (h : wellFormedSDF pf = true) :
    DS.check_missing_copyright pf =
      .ok (if (slicesOf pf).any (fun p => p.1 == "copyright") then none
           else some (createNote "missing copyright" none none)) := by
  cases pf with
  | null => simp [wellFormedSDF] at h
  | bool b => simp [wellFormedSDF] at h
  | int n => simp [wellFormedSDF] at h
  | str s => simp [wellFormedSDF] at h
  | list xs => simp [wellFormedSDF] at h
  | map kvs =>
    simp only [wellFormedSDF] at h
    cases hsl : lookupA kvs "slices" with
    | none => rw [hsl] at h; simp at h
    | some v =>
      rw [hsl] at h
      cases v with
      | map skvs => simp only [DS.check_missing_copyright, slicesOf, hsl]
      | null => simp at h
      | bool b => simp at h
      | int n => simp at h
      | str s => simp at h
      | list xs => simp at h

/-! ### Claim C3 -/

/-- C3 counterexample: the empty document decodes successfully (to
Python `None`, here `Yaml.null`), yet `check_sdf` raises a `TypeError`
when subscripting it — the engine is not total over all decodable
parsed forms, contrary to the claim. -/
theorem C3_counterexample_null_parsed_form :
    DS.check_sdf Yaml.null "" = Except.error "TypeError: object is not subscriptable" := by
  rfl

/-- C3 (amended): `check_sdf` is a pure function (a Lean `def`), and it
is total — returns a note list and never raises — on every well-formed
parsed form: a mapping with a `slices` mapping whose entries are
mappings having an optional `contents` mapping and an optional
`essential` list of strings.  On other successfully decoded values
(e.g. the `None` of an empty document) it can raise. -/
theorem C3_check_sdf_total_on_wellformed (pf : Yaml) (text : String)
    (h : wellFormedSDF pf = true) : ∃ notes, DS.check_sdf pf text = .ok notes := by
  unfold DS.check_sdf
  rw [check_missing_copyright_wf pf h, check_unsorted_contents_wf pf h]
  exact ⟨_, rfl⟩

/-- C3 witness: the totality theorem applied at a concrete well-formed
slice definition. -/
theorem C3_witness : wellFormedSDF cleanYaml = true ∧
    ∃ notes, DS.check_sdf cleanYaml cleanText = .ok notes :=
  ⟨by decide, C3_check_sdf_total_on_wellformed cleanYaml cleanText (by decide)⟩

/-! ### Claim C1 -/

/-- C1: a release whose only slice is clean (the engine returns no notes
for it) is *dropped whole* by the Snapshot Writer: `_get_notes_by_release`
omits the release from its result, and `_write_db` then skips the
release (logging `This should not happen. Skipping.`), inserting **zero**
rows into the slice table for its one extracted slice definition — the
claim says exactly one row is inserted per extracted slice.  The release
row itself is still inserted, so the loss is silent in the output. -/
theorem C1_notefree_release_dropped :
    DS.check_sdf cleanYaml cleanText = .ok [] ∧
    DS.getNotesByRelease c1decode [(relNoble, [("pkg", cleanText)])] = .ok [] ∧
    c1run.2.1 = none ∧
    c1run.1.sliceRows = [] ∧
    c1run.1.releaseRows.length = 1 := by
  refine ⟨by decide, by decide, by decide, rfl, by decide⟩

/-! ### Claim C2 (counterexample) -/

/-- C2 counterexample: one malformed slice text reaches `_write_db`
(its analysis note is the synthetic `invalid YAML` note), the re-decode
inside the write loop raises after the first slice row was inserted, and
the `finally` block of `db_connection` still commits — the snapshot file
ends up with a partial set of rows, contrary to the claim that nothing
is committed unless the whole write succeeds. -/
theorem C2_counterexample_partial_commit :
    DS.getNotesByRelease c2decode c2slices = .ok c2notes ∧
    c2run.2.1 = some "mapping values are not allowed here" ∧
    c2run.1.sliceRows.length = 1 ∧
    c2run.1.sliceRows.map (fun r => r.package) = ["a"] ∧
    c2run.2.2 = [Ev.beginTx, Ev.insertRow, Ev.commitTx] := by
  refine ⟨by decide, by decide, by decide, by decide, by decide⟩

/-! ### Claim C6 (counterexample) -/

/-- C6 counterexample: a parsed form whose content-path key `/a**`
contains a double glob while the raw text does not (such a pair arises
from YAML escapes, e.g. `"/a\x2a\x2a"` in the document).  The pipeline's
engine (`data_scraper.check_sdf`) emits **no** double-glob note, because
its `check_double_glob` inspects only the raw text — the claim's second
disjunct (a `**` inside a contents key) does not trigger the note. -/
theorem C6_counterexample_key_only_glob :
    strContains c6Text "**" = false ∧
    ((slicesOf c6Yaml).any (fun p => (contentsKeysOf p.2).any (fun kk => strContains kk "**"))) = true ∧
    DS.check_sdf c6Yaml c6Text = .ok [createNote "missing copyright" none none] ∧
    countNote [createNote "missing copyright" none none] "double glob" = 0 := by
  refine ⟨by decide, by decide, by decide, by decide⟩

/-! ### Claim C7 (counterexample) -/

/-- C7 counterexample: a stanza carrying all four fields
`Package:`, `Version:`, `Description:`, `Section:` — but with an empty
`Package:` value — is dropped (`from_content_hunk` returns `None`
because the empty string is falsy), although the claim says a `Package`
is produced exactly when the four fields are present. -/
theorem C7_counterexample_empty_value :
    DS.from_content_hunk c7hunk relNoble "main" "" = none ∧
    fieldValues c7hunk "Package" = [""] ∧
    fieldValues c7hunk "Version" = ["1.0"] ∧
    fieldValues c7hunk "Description" = ["d"] ∧
    fieldValues c7hunk "Section" = ["utils"] := by
  refine ⟨by decide, by decide, by decide, by decide, by decide⟩

/-! ### Claim C9 -/

/-- C9: the spec scenario — the slice text with contents keys `/b`, `/a`
produces exactly a `missing copyright` note (the spec's
*missing-copyright*) and an `unsorted content` note (the spec's
*unsorted-content*); and in general, on well-formed parsed forms, every
slice entry whose contents key list or essential list is not ascending
lexicographically contributes an `unsorted content` note to the engine
output. -/
theorem C9_scenario_and_unsorted_rule :
    (DS.check_sdf c9Yaml c9Text =
      .ok [createNote "missing copyright" none none, createNote "unsorted content" none none]) ∧
    (∀ pf text notes, wellFormedSDF pf = true → DS.check_sdf pf text = .ok notes →
      ∀ p ∈ slicesOf pf,
        (¬ List.Sorted (fun a b : String => pyStrLe a b = true) (contentsKeysOf p.2) ∨
         ¬ List.Sorted (fun a b : String => pyStrLe a b = true) (essentialOf p.2)) →
        createNote "unsorted content" none none ∈ notes) := by
  constructor
  · decide
  · intro pf text notes hwf hok p hp hoff
    obtain ⟨mc, us, hmc, hus, hnotes⟩ := check_sdf_parts pf text notes hok
    rw [check_unsorted_contents_wf pf hwf] at hus
    have hus2 : ((slicesOf pf).filterMap (fun p =>
        if pyNeSortedStr (contentsKeysOf p.2) || pyNeSortedStr (essentialOf p.2) then
          some (createNote "unsorted content" none none)
        else none)) = us := by
      injection hus
    subst hnotes
    apply List.mem_append.mpr
    right
    rw [← hus2]
    apply List.mem_filterMap.mpr
    refine ⟨p, hp, ?_⟩
    have hb : (pyNeSortedStr (contentsKeysOf p.2) || pyNeSortedStr (essentialOf p.2)) = true := by
      rw [Bool.or_eq_true]
      rcases hoff with h1 | h2
      · exact Or.inl ((ne_sorted_iff _).mpr h1)
      · exact Or.inr ((ne_sorted_iff _).mpr h2)
    simp [hb]

/-- C9 witness: the general rule applied to the scenario input, whose
`foo` entry has the unsorted contents keys `/b`, `/a`. -/
theorem C9_witness :
    createNote "unsorted content" none none ∈
      [createNote "missing copyright" none none, createNote "unsorted content" none none] :=
  C9_scenario_and_unsorted_rule.2 c9Yaml c9Text
    [createNote "missing copyright" none none, createNote "unsorted content" none none]
    (by decide)
    C9_scenario_and_unsorted_rule.1
    ("foo", Yaml.map [("contents", Yaml.map [("/b", Yaml.map []), ("/a", Yaml.map [])])])
    (by
      rw [show slicesOf c9Yaml =
        [("foo", Yaml.map [("contents", Yaml.map [("/b", Yaml.map []), ("/a", Yaml.map [])])])] from rfl]
      exact List.mem_singleton_self _)
    (Or.inl (by
      rw [show contentsKeysOf (("foo",
        Yaml.map [("contents", Yaml.map [("/b", Yaml.map []), ("/a", Yaml.map [])])]) :
          String × Yaml).2 = ["/b", "/a"] from rfl]
      intro hs
      have h1 : pyStrLe "/b" "/a" = true :=
        (List.pairwise_cons.mp hs).1 "/a" (List.mem_singleton_self _)
      exact absurd h1 (by decide)))

/-! ### Claim C5 -/

/-- C5: when structural decoding of a slice text fails, the per-slice
loop of `_get_notes_by_release` records exactly one synthetic note —
kind `invalid YAML` (the note the spec names *invalid-definition*),
carrying the decode error message as its `text`, with no `line` — and
continues with the remaining slices; the analysis engine is a parameter
of the loop here and does not occur on the right-hand side, so it is not
invoked on the failing slice. -/
theorem C5_decode_failure_synthetic_note
    (engine : Yaml → String → Except String (List Note))
    (decode : String → Except String Yaml)
    (package_name slice_text : String) (rest : List (String × String)) (e : String)
    (h : decode slice_text = .error e) :
    DS.notesForSlices engine decode ((package_name, slice_text) :: rest) =
      (DS.notesForSlices engine decode rest).map
        (fun tail => (package_name, [createNote "invalid YAML" (some e) none]) :: tail) := by
  rw [DS.notesForSlices, h]
  cases ht : DS.notesForSlices engine decode rest with
  | error e2 => simp [Bind.bind, Except.bind, Except.map]
  | ok tail => simp [Bind.bind, Except.bind, Except.map, pure, Except.pure]

/-- C5 witness: the theorem applied with an engine that would raise if it
were invoked — the failing slice still yields only the synthetic note,
and the remaining slice is still processed. -/
theorem C5_witness :
    DS.notesForSlices (fun _ _ => .error "engine must not run")
      (fun _ => .error "bad")
      [("p", "t"), ("q", "t2")] =
      .ok [("p", [createNote "invalid YAML" (some "bad") none]),
           ("q", [createNote "invalid YAML" (some "bad") none])] := by
  rw [C5_decode_failure_synthetic_note (fun _ _ => .error "engine must not run")
    (fun _ => .error "bad") "p" "t" [("q", "t2")] "bad" rfl]
  decide

/-! ### Claim C8 -/

/-- An all-blank segment of length at least three contains three
consecutive blank lines. -/
theorem three_of_blank_prefix (p q : List String) (hall : ∀ l ∈ p, blankB l = true)
    (hlen : 3 ≤ p.length) :
    ∃ pre a b c suf, p ++ q = pre ++ a :: b :: c :: suf ∧
      blankB a = true ∧ blankB b = true ∧ blankB c = true := by
  cases p with
  | nil => simp at hlen
  | cons a p1 =>
    cases p1 with
    | nil => simp at hlen
    | cons b p2 =>
      cases p2 with
      | nil => simp at hlen
      | cons c p3 =>
        exact ⟨[], a, b, c, p3 ++ q, by simp,
          hall a (by simp), hall b (by simp), hall c (by simp)⟩

/-- Invariant of the blank-line counter loop: it finds a note exactly
when an all-blank prefix pushes the carried count to three, or three
consecutive blank lines occur later. -/
theorem blanksLoop_isSome (lines : List String) (k : Nat) :
    (DS.blanksLoop lines k).isSome = true ↔ blanksDisj lines k := by
  induction lines generalizing k with
  | nil =>
    simp only [DS.blanksLoop, Option.isSome_none, Bool.false_eq_true, false_iff]
    rintro (⟨p, q, hpq, hne, _, _⟩ | ⟨pre, a, b, c, suf, hh, _⟩)
    · cases p with
      | nil => exact hne rfl
      | cons x xs => simp at hpq
    · simp at hh
  | cons l rest ih =>
    simp only [DS.blanksLoop]
    by_cases hb : blankB l = true
    · have hps : (pyStrip l == "") = true := by rw [pyStrip_eq_empty]; exact hb
      simp only [hps, if_true]
      by_cases hk : k + 1 > 2
      · simp only [if_pos hk, Option.isSome_some, true_iff]
        left
        refine ⟨[l], rest, rfl, by simp, ?_, by simp; omega⟩
        intro z hz
        rcases List.mem_singleton.mp hz with rfl
        exact hb
      · simp only [if_neg hk]
        rw [ih (k + 1)]
        constructor
        · rintro (⟨p, q, hpq, hne, hall, hlen⟩ | ⟨pre, a, b, c, suf, hsp, ha, hb2, hc⟩)
          · left
            refine ⟨l :: p, q, by rw [hpq]; rfl, by simp, ?_, by simp; omega⟩
            intro z hz
            rcases List.mem_cons.mp hz with rfl | hz2
            · exact hb
            · exact hall z hz2
          · right
            exact ⟨l :: pre, a, b, c, suf, by rw [hsp]; rfl, ha, hb2, hc⟩
        · rintro (⟨p, q, hpq, hne, hall, hlen⟩ | ⟨pre, a, b, c, suf, hsp, ha, hb2, hc⟩)
          · cases p with
            | nil => exact absurd rfl hne
            | cons x p1 =>
              rw [List.cons_append] at hpq
              injection hpq with hx hrest
              cases p1 with
              | nil =>
                simp at hlen
                omega
              | cons y p2 =>
                left
                refine ⟨y :: p2, q, hrest, by simp, ?_, ?_⟩
                · intro z hz
                  exact hall z (List.mem_cons_of_mem x hz)
                · simp at hlen ⊢
                  omega
          · cases pre with
            | nil =>
              rw [List.nil_append] at hsp
              injection hsp with h1 h2
              left
              refine ⟨[b, c], suf, by rw [h2]; rfl, by simp, ?_, by simp⟩
              intro z hz
              rcases List.mem_cons.mp hz with rfl | hz2
              · exact hb2
              · rcases List.mem_singleton.mp hz2 with rfl
                exact hc
            | cons x pre1 =>
              rw [List.cons_append] at hsp
              injection hsp with h1 h2
              right
              exact ⟨pre1, a, b, c, suf, h2, ha, hb2, hc⟩
    · have hps : (pyStrip l == "") = false := by
        rw [pyStrip_eq_empty]
        exact (Bool.not_eq_true _).mp hb
      simp only [hps, Bool.false_eq_true, if_false]
      rw [if_neg (by omega)]
      rw [ih 0]
      constructor
      · rintro (⟨p, q, hpq, hne, hall, hlen⟩ | ⟨pre, a, b, c, suf, hsp, ha, hb2, hc⟩)
        · right
          obtain ⟨pre, a, b, c, suf, hh, ha, hb2, hc⟩ :=
            three_of_blank_prefix p q hall (by omega)
          exact ⟨l :: pre, a, b, c, suf, by rw [hpq, hh]; rfl, ha, hb2, hc⟩
        · right
          exact ⟨l :: pre, a, b, c, suf, by rw [hsp]; rfl, ha, hb2, hc⟩
      · rintro (⟨p, q, hpq, hne, hall, hlen⟩ | ⟨pre, a, b, c, suf, hsp, ha, hb2, hc⟩)
        · cases p with
          | nil => exact absurd rfl hne
          | cons x p1 =>
            rw [List.cons_append] at hpq
            injection hpq with hx hrest
            subst hx
            exact absurd (hall l (List.mem_cons_self l p1)) (by simpa using hb)
        · cases pre with
          | nil =>
            rw [List.nil_append] at hsp
            injection hsp with h1 h2
            subst h1
            exact absurd ha (by simpa using hb)
          | cons x pre1 =>
            rw [List.cons_append] at hsp
            injection hsp with h1 h2
            right
            exact ⟨pre1, a, b, c, suf, h2, ha, hb2, hc⟩

/-- The excess-blank-lines check fires exactly on texts with three or
more consecutive blank lines. -/
theorem check_excess_iff (text : String) :
    (DS.check_excess_blank_lines text).isSome = true ↔ hasThreeBlank text := by
  unfold DS.check_excess_blank_lines hasThreeBlank
  rw [blanksLoop_isSome]
  unfold blanksDisj
  constructor
  · rintro (⟨p, q, hpq, hne, hall, hlen⟩ | h)
    · obtain ⟨pre, a, b, c, suf, hh, ha, hb, hc⟩ :=
        three_of_blank_prefix p q hall (by omega)
      exact ⟨pre, a, b, c, suf, by rw [hpq, hh], ha, hb, hc⟩
    · exact h
  · intro h
    right
    exact h

/-- The only note the blank-line loop can return. -/
theorem blanksLoop_value (lines : List String) (k : Nat) (n : Note)
    (h : DS.blanksLoop lines k = some n) :
    n = createNote "excess blank lines" none none := by
  induction lines generalizing k with
  | nil => simp [DS.blanksLoop] at h
  | cons l rest ih =>
    simp only [DS.blanksLoop] at h
    split at h
    · split at h
      · injection h with h
        exact h.symm
      · exact ih _ h
    · split at h
      · injection h with h
        exact h.symm
      · exact ih _ h

/-- The only note the architecture-comment loop can return. -/
theorem archLoop_value (lines : List String) (n : Note)
    (h : DS.archLoop lines = some n) :
    n = createNote "architecture comments" none none := by
  induction lines with
  | nil => simp [DS.archLoop] at h
  | cons l rest ih =>
    simp only [DS.archLoop] at h
    split at h
    · split at h
      · injection h with h
        exact h.symm
      · exact ih h
    · exact ih h

/-- Notes of a successful `check_unsorted_contents` are all
`unsorted content` notes. -/
theorem check_unsorted_contents_notes (pf : Yaml) (us : List Note)
    (h : DS.check_unsorted_contents pf = .ok us) :
    ∀ n ∈ us, n.note = "unsorted content" := by
  unfold DS.check_unsorted_contents at h
  repeat' split at h
  all_goals first
    | exact unsortedLoop_notes _ us h
    | simp at h

/-- C8: the engine notes a slice for excess blank lines exactly when its
raw text has three or more consecutive blank lines, and a successful
`check_sdf` run contains exactly one such note when the condition holds
and none otherwise (one note per slice, not one per blank line). -/
theorem C8_excess_blank_lines :
    (∀ text, (DS.check_excess_blank_lines text).isSome = true ↔ hasThreeBlank text) ∧
    (∀ pf text notes, DS.check_sdf pf text = .ok notes →
      countNote notes "excess blank lines" =
        if (DS.check_excess_blank_lines text).isSome = true then 1 else 0) := by
  constructor
  · exact check_excess_iff
  · intro pf text notes h
    obtain ⟨mc, us, hmc, hus, hnotes⟩ := check_sdf_parts pf text notes h
    subst hnotes
    simp only [countNote, List.countP_append]
    have h1 : List.countP (fun n => n.note == "excess blank lines") (DS.optToList mc) = 0 := by
      cases mc with
      | none => rfl
      | some n =>
        have hn := check_missing_copyright_note pf n hmc
        simp [DS.optToList, List.countP_cons, hn]
    have h2 : List.countP (fun n => n.note == "excess blank lines")
        (DS.optToList (DS.check_double_glob text)) = 0 := by
      unfold DS.check_double_glob
      split <;> simp [DS.optToList, List.countP_cons, createNote]
    have h4 : List.countP (fun n => n.note == "excess blank lines")
        (DS.optToList (DS.check_architecture_comments text)) = 0 := by
      cases harch : DS.check_architecture_comments text with
      | none => rfl
      | some n =>
        have hn := archLoop_value (pySplitlines text) n harch
        subst hn
        simp [DS.optToList, List.countP_cons, createNote]
    have h5 : List.countP (fun n => n.note == "excess blank lines") us = 0 := by
      rw [List.countP_eq_zero]
      intro n hn
      have := check_unsorted_contents_notes pf us hus n hn
      simp [this]
    have h3 : List.countP (fun n => n.note == "excess blank lines")
        (DS.optToList (DS.check_excess_blank_lines text)) =
        if (DS.check_excess_blank_lines text).isSome = true then 1 else 0 := by
      cases hbl : DS.check_excess_blank_lines text with
      | none => rfl
      | some n =>
        have hn := blanksLoop_value (pySplitlines text) 0 n hbl
        subst hn
        simp [DS.optToList, List.countP_cons, createNote]
    rw [h1, h2, h3, h4, h5]
    omega

/-- C8 witness: the spec scenario of four consecutive blank lines —
exactly one excess-blank-lines note results. -/
theorem C8_witness :
    countNote [createNote "excess blank lines" none none] "excess blank lines" = 1 ∧
    hasThreeBlank "x\n\n\n\n\ny" := by
  have h3 : hasThreeBlank "x\n\n\n\n\ny" :=
    (C8_excess_blank_lines.1 "x\n\n\n\n\ny").mp (by decide)
  refine ⟨?_, h3⟩
  have hc := C8_excess_blank_lines.2 cleanYaml "x\n\n\n\n\ny"
    [createNote "excess blank lines" none none] (by decide)
  rw [hc]
  decide

/-! ### Claim C6 -/

/-- On well-formed entries, the `sdf_checker` key loop collects one
warning per content-path key containing a double glob. -/
theorem globKeysLoop_wf (skvs : List (String × Yaml))
    (h : skvs.all (fun p => wellFormedEntry p.2) = true) :
    DM.globKeysLoop skvs = .ok ((skvs.map (fun p =>
      (contentsKeysOf p.2).filterMap (fun path =>
        if strContains path "**" = true then some (create_warning "double glob" none none)
        else none))).flatten) := by
  induction skvs with
  | nil => rfl
  | cons p rest ih =>
    simp only [List.all_cons, Bool.and_eq_true] at h
    obtain ⟨hp, hrest⟩ := h
    rcases p with ⟨name, content⟩
    cases content with
    | null => simp [wellFormedEntry] at hp
    | bool b => simp [wellFormedEntry] at hp
    | int n => simp [wellFormedEntry] at hp
    | str s => simp [wellFormedEntry] at hp
    | list xs => simp [wellFormedEntry] at hp
    | map ckvs =>
      simp only [wellFormedEntry, Bool.and_eq_true] at hp
      obtain ⟨hc, _⟩ := hp
      cases hcl : lookupA ckvs "contents" with
      | none =>
        rw [hcl] at hc
        simp only [DM.globKeysLoop, hcl, Option.getD_none]
        rw [ih hrest]
        simp [Bind.bind, Except.bind, pure, Except.pure, contentsKeysOf, hcl,
          List.flatten_cons]
      | some cv =>
        rw [hcl] at hc
        cases cv with
        | map m =>
          simp only [DM.globKeysLoop, hcl, Option.getD_some]
          rw [ih hrest]
          simp [Bind.bind, Except.bind, pure, Except.pure, contentsKeysOf, hcl,
            List.flatten_cons]
        | null => simp at hc
        | bool b => simp at hc
        | int n => simp at hc
        | str s => simp at hc
        | list xs => simp at hc

/-- C6 (amended): the pipeline's engine (`data_scraper.check_sdf`) emits
its double-glob note **iff the raw text contains `**`** — a `**` only
inside a parsed contents key does not trigger it; the older
`data_manager/sdf_checker.py` revision implements the claim's full
disjunction: its warning list is non-empty iff the text contains `**` or
some content-path key of some slice does. -/
theorem C6_double_glob_text_only :
    (∀ pf text notes, DS.check_sdf pf text = .ok notes →
      countNote notes "double glob" = if strContains text "**" = true then 1 else 0) ∧
    (∀ pf text, wellFormedSDF pf = true →
      ∃ ws, DM.check_double_glob pf text = .ok ws ∧
        (ws ≠ [] ↔ (strContains text "**" = true ∨
          ∃ p ∈ slicesOf pf, ∃ kk ∈ contentsKeysOf p.2, strContains kk "**" = true))) := by
  constructor
  · intro pf text notes h
    obtain ⟨mc, us, hmc, hus, hnotes⟩ := check_sdf_parts pf text notes h
    subst hnotes
    simp only [countNote, List.countP_append]
    have h1 : List.countP (fun n => n.note == "double glob") (DS.optToList mc) = 0 := by
      cases mc with
      | none => rfl
      | some n =>
        have hn := check_missing_copyright_note pf n hmc
        simp [DS.optToList, List.countP_cons, hn]
    have h2 : List.countP (fun n => n.note == "double glob")
        (DS.optToList (DS.check_double_glob text)) =
        if strContains text "**" = true then 1 else 0 := by
      unfold DS.check_double_glob
      split <;> simp [DS.optToList, List.countP_cons, createNote]
    have h3 : List.countP (fun n => n.note == "double glob")
        (DS.optToList (DS.check_excess_blank_lines text)) = 0 := by
      cases hbl : DS.check_excess_blank_lines text with
      | none => rfl
      | some n =>
        have hn := blanksLoop_value (pySplitlines text) 0 n hbl
        subst hn
        simp [DS.optToList, List.countP_cons, createNote]
    have h4 : List.countP (fun n => n.note == "double glob")
        (DS.optToList (DS.check_architecture_comments text)) = 0 := by
      cases harch : DS.check_architecture_comments text with
      | none => rfl
      | some n =>
        have hn := archLoop_value (pySplitlines text) n harch
        subst hn
        simp [DS.optToList, List.countP_cons, createNote]
    have h5 : List.countP (fun n => n.note == "double glob") us = 0 := by
      rw [List.countP_eq_zero]
      intro n hn
      have := check_unsorted_contents_notes pf us hus n hn
      simp [this]
    rw [h1, h2, h3, h4, h5]
    omega
  · intro pf text hwf
    cases pf with
    | null => simp [wellFormedSDF] at hwf
    | bool b => simp [wellFormedSDF] at hwf
    | int n => simp [wellFormedSDF] at hwf
    | str s => simp [wellFormedSDF] at hwf
    | list xs => simp [wellFormedSDF] at hwf
    | map kvs =>
      simp only [wellFormedSDF] at hwf
      cases hsl : lookupA kvs "slices" with
      | none => rw [hsl] at hwf; simp at hwf
      | some v =>
        rw [hsl] at hwf
        cases v with
        | map skvs =>
          have hloop := globKeysLoop_wf skvs hwf
          have hslof : slicesOf (Yaml.map kvs) = skvs := by
            simp [slicesOf, hsl]
          refine ⟨(if strContains text "**" = true then [create_warning "double glob" none none]
              else []) ++
            (skvs.map (fun p =>
              (contentsKeysOf p.2).filterMap (fun path =>
                if strContains path "**" = true then
                  some (create_warning "double glob" none none)
                else none))).flatten, ?_, ?_⟩
          · simp only [DM.check_double_glob, hsl, hloop, Except.map]
          · rw [hslof]
            set f := fun p : String × Yaml =>
              (contentsKeysOf p.2).filterMap (fun path =>
                if strContains path "**" = true then some (create_warning "double glob" none none)
                else none) with hf
            constructor
            · intro hne
              by_contra hex
              push_neg at hex
              obtain ⟨hex1, hex2⟩ := hex
              apply hne
              rw [List.append_eq_nil]
              constructor
              · simp [Bool.not_eq_true] at hex1
                simp [hex1]
              · rw [List.flatten_eq_nil_iff]
                intro x hx
                obtain ⟨p, hp, rfl⟩ := List.mem_map.mp hx
                rw [hf]
                rw [List.filterMap_eq_nil_iff]
                intro kk hkk
                have := hex2 p hp kk hkk
                simp [this]
            · rintro (htext | ⟨p, hp, kk, hkk, hkglob⟩) heq
              · rw [List.append_eq_nil] at heq
                rw [htext] at heq
                simp at heq
              · rw [List.append_eq_nil] at heq
                have h2 := heq.2
                rw [List.flatten_eq_nil_iff] at h2
                have h3 := h2 (f p) (List.mem_map_of_mem f hp)
                rw [hf, List.filterMap_eq_nil_iff] at h3
                have h4 := h3 kk hkk
                simp [hkglob] at h4
        | null => simp at hwf
        | bool b => simp at hwf
        | int n => simp at hwf
        | str s => simp at hwf
        | list xs => simp at hwf

/-- C6 witness: on the key-only-glob input the pipeline engine emits no
double-glob note while the `sdf_checker` revision emits a warning. -/
theorem C6_witness :
    countNote [createNote "missing copyright" none none] "double glob" = 0 ∧
    ∃ ws, DM.check_double_glob c6Yaml c6Text = .ok ws ∧ ws ≠ [] := by
  constructor
  · have h := C6_double_glob_text_only.1 c6Yaml c6Text
      [createNote "missing copyright" none none] (by decide)
    rw [h]
    decide
  · obtain ⟨ws, hws, hiff⟩ := C6_double_glob_text_only.2 c6Yaml c6Text (by decide)
    refine ⟨ws, hws, hiff.mpr (Or.inr ⟨("foo", Yaml.map [("contents", Yaml.map [("/a**", Yaml.map [])])]), ?_, "/a**", ?_, by decide⟩)⟩
    · rw [show slicesOf c6Yaml =
        [("foo", Yaml.map [("contents", Yaml.map [("/a**", Yaml.map [])])])] from rfl]
      exact List.mem_singleton_self _
    · rw [show contentsKeysOf (("foo",
        Yaml.map [("contents", Yaml.map [("/a**", Yaml.map [])])]) : String × Yaml).2 =
          ["/a**"] from rfl]
      exact List.mem_singleton_self _

/-! ### Claim C7 -/

/-- The last element of a cons in terms of the tail's last element. -/
theorem getLast?_cons_or {α : Type} (x : α) (xs : List α) :
    (x :: xs).getLast? = xs.getLast?.or (some x) := by
  cases xs with
  | nil => rfl
  | cons y ys =>
    rw [List.getLast?_cons_cons]
    cases h : (y :: ys).getLast? with
    | none => simp at h
    | some a => rfl

/-- The field fold of `from_content_hunk` keeps, for each of the four
keys, the last value any line assigns (falling back to the incoming
state). -/
theorem hunkFold_spec (lines : List String) (st : HunkState) :
    (DS.hunkFold lines st).name =
      ((lines.filterMap (fun line => match splitOnce ':' line.data with
        | none => none
        | some (k, v) =>
          if pyStrip (String.mk k) == "Package" then some (pyStrip (String.mk v))
          else none)).getLast?).or st.name ∧
    (DS.hunkFold lines st).version =
      ((lines.filterMap (fun line => match splitOnce ':' line.data with
        | none => none
        | some (k, v) =>
          if pyStrip (String.mk k) == "Version" then some (pyStrip (String.mk v))
          else none)).getLast?).or st.version ∧
    (DS.hunkFold lines st).description =
      ((lines.filterMap (fun line => match splitOnce ':' line.data with
        | none => none
        | some (k, v) =>
          if pyStrip (String.mk k) == "Description" then some (pyStrip (String.mk v))
          else none)).getLast?).or st.description ∧
    (DS.hunkFold lines st).sect =
      ((lines.filterMap (fun line => match splitOnce ':' line.data with
        | none => none
        | some (k, v) =>
          if pyStrip (String.mk k) == "Section" then some (pyStrip (String.mk v))
          else none)).getLast?).or st.sect := by
  induction lines generalizing st with
  | nil => exact ⟨rfl, rfl, rfl, rfl⟩
  | cons line rest ih =>
    cases hsp : splitOnce ':' line.data with
    | none =>
      simp only [DS.hunkFold, hsp, List.filterMap_cons]
      exact ih st
    | some kv =>
      obtain ⟨k, v⟩ := kv
      simp only [DS.hunkFold, hsp, List.filterMap_cons]
      by_cases h1 : (pyStrip (String.mk k) == "Package") = true
      · have hx : pyStrip (String.mk k) = "Package" := eq_of_beq h1
        simp only [hx,
          (show (("Package" : String) == "Package") = true by decide),
          (show (("Package" : String) == "Version") = false by decide),
          (show (("Package" : String) == "Description") = false by decide),
          (show (("Package" : String) == "Section") = false by decide),
          if_true, Bool.false_eq_true, if_false]
        refine ⟨?_, (ih _).2.1, (ih _).2.2.1, (ih _).2.2.2⟩
        rw [getLast?_cons_or, Option.or_assoc, Option.or_some]
        exact (ih _).1
      · simp only [Bool.not_eq_true] at h1
        simp only [h1, Bool.false_eq_true, if_false]
        by_cases h2 : (pyStrip (String.mk k) == "Version") = true
        · have hx : pyStrip (String.mk k) = "Version" := eq_of_beq h2
          simp only [hx,
            (show (("Version" : String) == "Package") = false by decide),
            (show (("Version" : String) == "Version") = true by decide),
            (show (("Version" : String) == "Description") = false by decide),
            (show (("Version" : String) == "Section") = false by decide),
            if_true, Bool.false_eq_true, if_false]
          refine ⟨(ih _).1, ?_, (ih _).2.2.1, (ih _).2.2.2⟩
          rw [getLast?_cons_or, Option.or_assoc, Option.or_some]
          exact (ih _).2.1
        · simp only [Bool.not_eq_true] at h2
          simp only [h2, Bool.false_eq_true, if_false]
          by_cases h3 : (pyStrip (String.mk k) == "Description") = true
          · have hx : pyStrip (String.mk k) = "Description" := eq_of_beq h3
            simp only [hx,
              (show (("Description" : String) == "Package") = false by decide),
              (show (("Description" : String) == "Version") = false by decide),
              (show (("Description" : String) == "Description") = true by decide),
              (show (("Description" : String) == "Section") = false by decide),
              if_true, Bool.false_eq_true, if_false]
            refine ⟨(ih _).1, (ih _).2.1, ?_, (ih _).2.2.2⟩
            rw [getLast?_cons_or, Option.or_assoc, Option.or_some]
            exact (ih _).2.2.1
          · simp only [Bool.not_eq_true] at h3
            simp only [h3, Bool.false_eq_true, if_false]
            by_cases h4 : (pyStrip (String.mk k) == "Section") = true
            · have hx : pyStrip (String.mk k) = "Section" := eq_of_beq h4
              simp only [hx,
                (show (("Section" : String) == "Package") = false by decide),
                (show (("Section" : String) == "Version") = false by decide),
                (show (("Section" : String) == "Description") = false by decide),
                (show (("Section" : String) == "Section") = true by decide),
                if_true, Bool.false_eq_true, if_false]
              refine ⟨(ih _).1, (ih _).2.1, (ih _).2.2.1, ?_⟩
              rw [getLast?_cons_or, Option.or_assoc, Option.or_some]
              exact (ih _).2.2.2
            · simp only [Bool.not_eq_true] at h4
              simp only [h4, Bool.false_eq_true, if_false]
              exact ih st

/-- Python falsiness of an optional string, negatively: not falsy means
present with a non-empty value. -/
theorem pyFalsyStr_false_iff (o : Option String) :
    DS.pyFalsyStr o = false ↔ ∃ v, o = some v ∧ v ≠ "" := by
  cases o with
  | none => simp [DS.pyFalsyStr]
  | some s =>
    simp only [DS.pyFalsyStr, beq_eq_false_iff_ne, Option.some.injEq]
    constructor
    · intro h
      exact ⟨s, rfl, h⟩
    · rintro ⟨v, rfl, hv⟩
      exact hv

/-- C7 (amended): parsing a stanza yields a `Package` exactly when each
of the four fields `Package:`, `Version:`, `Description:`, `Section:`
occurs on some line with a **non-empty** (stripped) value — a field
present with an empty value is dropped exactly like a missing field; and
when a package is produced, each field carries the last value the stanza
assigns to it, with a leading `<component>/` prefix removed from the
section when present. -/
theorem C7_from_content_hunk_spec (hunk : String) (release : UbuntuRelease)
    (component repo : String) :
    ((DS.from_content_hunk hunk release component repo).isSome = true ↔
      ((∃ v, lastField hunk "Package" = some v ∧ v ≠ "") ∧
       (∃ v, lastField hunk "Version" = some v ∧ v ≠ "") ∧
       (∃ v, lastField hunk "Description" = some v ∧ v ≠ "") ∧
       (∃ v, lastField hunk "Section" = some v ∧ v ≠ ""))) ∧
    (∀ p, DS.from_content_hunk hunk release component repo = some p →
      p.name = (lastField hunk "Package").getD "" ∧
      p.version = (lastField hunk "Version").getD "" ∧
      p.description = (lastField hunk "Description").getD "" ∧
      p.sect = pyRemovePre (component ++ "/") ((lastField hunk "Section").getD "") ∧
      p.release = release ∧ p.component = component ∧ p.repo = repo) := by
  obtain ⟨hn, hv, hd, hs⟩ := hunkFold_spec (pySplitlines hunk) ⟨none, none, none, none⟩
  simp only [Option.or_none] at hn hv hd hs
  simp only [DS.from_content_hunk]
  generalize hst : DS.hunkFold (pySplitlines hunk) ⟨none, none, none, none⟩ = st at hn hv hd hs ⊢
  have hn2 : st.name = lastField hunk "Package" := by rw [hn]; rfl
  have hv2 : st.version = lastField hunk "Version" := by rw [hv]; rfl
  have hd2 : st.description = lastField hunk "Description" := by rw [hd]; rfl
  have hs2 : st.sect = lastField hunk "Section" := by rw [hs]; rfl
  by_cases hc : (DS.pyFalsyStr st.name || DS.pyFalsyStr st.version ||
      DS.pyFalsyStr st.description || DS.pyFalsyStr st.sect) = true
  · rw [if_pos hc]
    constructor
    · simp only [Option.isSome_none, Bool.false_eq_true, false_iff]
      intro hcon
      obtain ⟨h1, h2, h3, h4⟩ := hcon
      have f1 : DS.pyFalsyStr st.name = false :=
        (pyFalsyStr_false_iff _).mpr (hn2 ▸ h1)
      have f2 : DS.pyFalsyStr st.version = false :=
        (pyFalsyStr_false_iff _).mpr (hv2 ▸ h2)
      have f3 : DS.pyFalsyStr st.description = false :=
        (pyFalsyStr_false_iff _).mpr (hd2 ▸ h3)
      have f4 : DS.pyFalsyStr st.sect = false :=
        (pyFalsyStr_false_iff _).mpr (hs2 ▸ h4)
      rw [f1, f2, f3, f4] at hc
      simp at hc
    · intro p hp
      simp at hp
  · rw [if_neg hc]
    have hc2 : (DS.pyFalsyStr st.name || DS.pyFalsyStr st.version ||
        DS.pyFalsyStr st.description || DS.pyFalsyStr st.sect) = false :=
      (Bool.not_eq_true _).mp hc
    rw [Bool.or_eq_false_iff] at hc2
    obtain ⟨hc3, f4⟩ := hc2
    rw [Bool.or_eq_false_iff] at hc3
    obtain ⟨hc4, f3⟩ := hc3
    rw [Bool.or_eq_false_iff] at hc4
    obtain ⟨f1, f2⟩ := hc4
    constructor
    · simp only [Option.isSome_some, true_iff]
      exact ⟨hn2 ▸ (pyFalsyStr_false_iff _).mp f1,
        hv2 ▸ (pyFalsyStr_false_iff _).mp f2,
        hd2 ▸ (pyFalsyStr_false_iff _).mp f3,
        hs2 ▸ (pyFalsyStr_false_iff _).mp f4⟩
    · intro p hp
      injection hp with hp
      subst hp
      exact ⟨by rw [← hn2], by rw [← hv2], by rw [← hd2], by rw [← hs2], rfl, rfl, rfl⟩

/-- C7 witness: a complete stanza parses; its section value is the last
`Section:` value with the `main/` prefix stripped. -/
theorem C7_witness :
    DS.from_content_hunk c7goodHunk relNoble "main" "" =
      some ⟨"foo", "1.0", relNoble, "main", "", "d", "utils"⟩ ∧
    (⟨"foo", "1.0", relNoble, "main", "", "d", "utils"⟩ : Package).sect =
      pyRemovePre ("main" ++ "/") ((lastField c7goodHunk "Section").getD "") := by
  refine ⟨by decide, ?_⟩
  exact ((C7_from_content_hunk_spec c7goodHunk relNoble "main" "").2 _ (by decide)).2.2.2.1

/-! ### Claim C2 (amended): single transaction, unconditional commit -/

/-- The description step only appends insert events. -/
theorem descStep_evs (db : DB) (evs : List Ev) (package : String) (info : Option Package) :
    ∃ new, (DS.descStep db evs package info).2 = evs ++ new ∧
      ∀ e ∈ new, e = Ev.insertRow := by
  cases info with
  | none => exact ⟨[], by simp [DS.descStep], by simp⟩
  | some q =>
    by_cases hd : (q.description == "") = true
    · exact ⟨[], by simp [DS.descStep, hd], by simp⟩
    · refine ⟨[Ev.insertRow], by simp [DS.descStep, hd], by simp⟩

/-- The slice loop only appends insert events. -/
theorem writeSlicesLoop_evs (decode : String → Except String Yaml)
    (release : UbuntuRelease) (notesFor : List (String × List Note))
    (packagesFor : List (String × Package)) (slices : List (String × String)) :
    ∀ db evs, ∃ new,
      (DS.writeSlicesLoop decode release notesFor packagesFor slices db evs).2.1 =
        evs ++ new ∧ ∀ e ∈ new, e = Ev.insertRow := by
  induction slices with
  | nil => intro db evs; exact ⟨[], by simp [DS.writeSlicesLoop], by simp⟩
  | cons p rest ih =>
    intro db evs
    obtain ⟨package, slice_text⟩ := p
    simp only [DS.writeSlicesLoop]
    cases hdec : decode slice_text with
    | error e => exact ⟨[], by simp, by simp⟩
    | ok j =>
      obtain ⟨mid, hmid, hmidins⟩ :=
        descStep_evs (DS.insert_into_slice db _) (evs ++ [Ev.insertRow]) package
          (lookupA packagesFor package)
      obtain ⟨new, hnew, hnewins⟩ := ih (DS.descStep _ _ package (lookupA packagesFor package)).1
        (DS.descStep (DS.insert_into_slice db _) (evs ++ [Ev.insertRow]) package
          (lookupA packagesFor package)).2
      refine ⟨[Ev.insertRow] ++ mid ++ new, ?_, ?_⟩
      · rw [hnew, hmid]
        simp [List.append_assoc]
      · intro e he
        rcases List.mem_append.mp he with h1 | h2
        · rcases List.mem_append.mp h1 with h3 | h4
          · rcases List.mem_singleton.mp h3 with rfl; rfl
          · exact hmidins e h4
        · exact hnewins e h2

/-- The release loop only appends insert events. -/
theorem writeReleasesLoop_evs (decode : String → Except String Yaml)
    (notesBy : List (UbuntuRelease × List (String × List Note)))
    (packagesBy : List (UbuntuRelease × List (String × Package)))
    (slicesBy : List (UbuntuRelease × List (String × String))) :
    ∀ db evs, ∃ new,
      (DS.writeReleasesLoop decode notesBy packagesBy slicesBy db evs).2.1 =
        evs ++ new ∧ ∀ e ∈ new, e = Ev.insertRow := by
  induction slicesBy with
  | nil => intro db evs; exact ⟨[], by simp [DS.writeReleasesLoop], by simp⟩
  | cons p rest ih =>
    intro db evs
    obtain ⟨release, slices⟩ := p
    simp only [DS.writeReleasesLoop]
    split
    · exact ih db evs
    · rename_i notesFor hn
      split
      · exact ih db evs
      · rename_i packagesFor hp
        obtain ⟨mid, hmid, hmidins⟩ :=
          writeSlicesLoop_evs decode release notesFor packagesFor slices db evs
        split
        · rename_i db1 evs1 e hloop
          rw [hloop] at hmid
          simp only at hmid
          exact ⟨mid, by simpa using hmid, hmidins⟩
        · rename_i db1 evs1 hloop
          rw [hloop] at hmid
          simp only at hmid
          subst hmid
          obtain ⟨new, hnew, hnewins⟩ := ih db1 (evs ++ mid)
          refine ⟨mid ++ new, ?_, ?_⟩
          · rw [hnew, List.append_assoc]
          · intro e he
            rcases List.mem_append.mp he with h1 | h2
            · exact hmidins e h1
            · exact hnewins e h2

/-- The release-insert fold only appends insert events. -/
theorem fold_release_evs (l : List (UbuntuRelease × List (String × String)))
    (start : DB × List Ev) (h : ∀ e ∈ start.2, e = Ev.insertRow) :
    ∀ e ∈ (l.foldl (fun (acc : DB × List Ev) rs =>
      (DS.insert_into_release acc.1 rs.1 false, acc.2 ++ [Ev.insertRow])) start).2,
      e = Ev.insertRow := by
  induction l generalizing start with
  | nil => exact h
  | cons p rest ih =>
    simp only [List.foldl_cons]
    apply ih
    intro e he
    rcases List.mem_append.mp he with h1 | h2
    · exact h e h1
    · rcases List.mem_singleton.mp h2 with rfl; rfl

/-- The catalog-release fold only appends insert events. -/
theorem fold_catalog_evs (slicesBy : List (UbuntuRelease × List (String × String)))
    (l : List UbuntuRelease) (start : DB × List Ev) (h : ∀ e ∈ start.2, e = Ev.insertRow) :
    ∀ e ∈ (l.foldl (fun (acc : DB × List Ev) release =>
      if slicesBy.any (fun rs => rs.1 == release) then acc
      else (DS.insert_into_release acc.1 release true, acc.2 ++ [Ev.insertRow])) start).2,
      e = Ev.insertRow := by
  induction l generalizing start with
  | nil => exact h
  | cons r rest ih =>
    simp only [List.foldl_cons]
    by_cases hmem : slicesBy.any (fun rs => rs.1 == r) = true
    · rw [if_pos hmem]
      exact ih start h
    · rw [if_neg hmem]
      apply ih
      intro e he
      rcases List.mem_append.mp he with h1 | h2
      · exact h e h1
      · rcases List.mem_singleton.mp h2 with rfl; rfl

/-- C2 (amended): every `_write_db` run performs all its inserts inside
one transaction — the connection event trace is exactly one `BEGIN`,
then only row inserts, then exactly one final `COMMIT` — **and this
holds on the error path too**: `db_connection` commits in its `finally`
block, so the commit is issued whether or not the write succeeded
(which is what makes the partial commit of the counterexample
possible). -/
theorem C2_write_db_single_transaction
    (decode : String → Except String Yaml)
    (slicesBy : List (UbuntuRelease × List (String × String)))
    (notesBy : List (UbuntuRelease × List (String × List Note)))
    (packagesBy : List (UbuntuRelease × List (String × Package)))
    (allReleases : List UbuntuRelease) (now url : String) :
    ∃ inserts,
      (DS.write_db decode slicesBy notesBy packagesBy allReleases now url).2.2 =
        Ev.beginTx :: inserts ++ [Ev.commitTx] ∧
      ∀ e ∈ inserts, e = Ev.insertRow := by
  unfold DS.write_db DS.db_connection_run
  refine ⟨(DS.write_db_body decode slicesBy notesBy packagesBy allReleases now url DB.empty).2.1,
    by simp, ?_⟩
  obtain ⟨new, hnew, hnewins⟩ :=
    writeReleasesLoop_evs decode notesBy packagesBy slicesBy DB.empty []
  unfold DS.write_db_body
  split
  · rename_i db1 evs1 e hloop
    rw [hloop] at hnew
    simp only at hnew
    subst hnew
    simpa using hnewins
  · rename_i db1 evs1 hloop
    rw [hloop] at hnew
    simp only at hnew
    subst hnew
    simp only
    intro e he
    rcases List.mem_append.mp he with h1 | h2
    · refine fold_catalog_evs slicesBy allReleases _ ?_ e h1
      refine fold_release_evs slicesBy _ ?_
      simpa using hnewins
    · rcases List.mem_cons.mp h2 with rfl | h3
      · rfl
      · rcases List.mem_singleton.mp h3 with rfl; rfl

/-! ### Claim C10 -/

/-- `INSERT OR IGNORE` keeps the description table's package column
duplicate-free. -/
theorem insert_into_description_nodup (db : DB) (package description : String)
    (h : (db.descRows.map Prod.fst).Nodup) :
    (((DS.insert_into_description db package description).descRows).map Prod.fst).Nodup := by
  unfold DS.insert_into_description
  split
  · exact h
  · rename_i hany
    simp only [List.map_append, List.map_cons, List.map_nil]
    rw [List.nodup_append]
    refine ⟨h, List.nodup_singleton _, ?_⟩
    intro a ha hb
    rcases List.mem_singleton.mp hb with rfl
    obtain ⟨q, hq, hqe⟩ := List.mem_map.mp ha
    apply hany
    rw [List.any_eq_true]
    exact ⟨q, hq, by rw [hqe]; exact beq_self_eq_true a⟩

/-- The description step preserves the duplicate-free key invariant. -/
theorem descStep_desc_nodup (db : DB) (evs : List Ev) (package : String)
    (info : Option Package) (h : (db.descRows.map Prod.fst).Nodup) :
    (((DS.descStep db evs package info).1).descRows.map Prod.fst).Nodup := by
  cases info with
  | none => exact h
  | some q =>
    simp only [DS.descStep]
    split
    · exact h
    · exact insert_into_description_nodup db package q.description h

/-- The slice loop preserves the duplicate-free key invariant. -/
theorem writeSlicesLoop_desc_nodup (decode : String → Except String Yaml)
    (release : UbuntuRelease) (notesFor : List (String × List Note))
    (packagesFor : List (String × Package)) (slices : List (String × String)) :
    ∀ db evs, (db.descRows.map Prod.fst).Nodup →
      (((DS.writeSlicesLoop decode release notesFor packagesFor slices db evs).1.descRows).map
        Prod.fst).Nodup := by
  induction slices with
  | nil => intro db evs h; exact h
  | cons p rest ih =>
    intro db evs h
    obtain ⟨package, slice_text⟩ := p
    simp only [DS.writeSlicesLoop]
    cases hdec : decode slice_text with
    | error e => exact h
    | ok j =>
      apply ih
      exact descStep_desc_nodup _ _ package (lookupA packagesFor package) h

/-- The release loop preserves the duplicate-free key invariant. -/
theorem writeReleasesLoop_desc_nodup (decode : String → Except String Yaml)
    (notesBy : List (UbuntuRelease × List (String × List Note)))
    (packagesBy : List (UbuntuRelease × List (String × Package)))
    (slicesBy : List (UbuntuRelease × List (String × String))) :
    ∀ db evs, (db.descRows.map Prod.fst).Nodup →
      (((DS.writeReleasesLoop decode notesBy packagesBy slicesBy db evs).1.descRows).map
        Prod.fst).Nodup := by
  induction slicesBy with
  | nil => intro db evs h; exact h
  | cons p rest ih =>
    intro db evs h
    obtain ⟨release, slices⟩ := p
    simp only [DS.writeReleasesLoop]
    split
    · exact ih db evs h
    · rename_i notesFor hn
      split
      · exact ih db evs h
      · rename_i packagesFor hp
        split
        · rename_i db1 evs1 e hloop
          have h2 := writeSlicesLoop_desc_nodup decode release notesFor packagesFor slices db evs h
          rw [hloop] at h2
          exact h2
        · rename_i db1 evs1 hloop
          apply ih
          have h2 := writeSlicesLoop_desc_nodup decode release notesFor packagesFor slices db evs h
          rw [hloop] at h2
          exact h2

/-- The release-insert fold leaves the description table unchanged. -/
theorem fold_release_descRows (l : List (UbuntuRelease × List (String × String)))
    (start : DB × List Ev) :
    (l.foldl (fun (acc : DB × List Ev) rs =>
      (DS.insert_into_release acc.1 rs.1 false, acc.2 ++ [Ev.insertRow])) start).1.descRows =
    start.1.descRows := by
  induction l generalizing start with
  | nil => rfl
  | cons p rest ih =>
    simp only [List.foldl_cons]
    rw [ih]
    rfl

/-- The catalog fold leaves the description table unchanged. -/
theorem fold_catalog_descRows (slicesBy : List (UbuntuRelease × List (String × String)))
    (l : List UbuntuRelease) (start : DB × List Ev) :
    (l.foldl (fun (acc : DB × List Ev) release =>
      if slicesBy.any (fun rs => rs.1 == release) then acc
      else (DS.insert_into_release acc.1 release true, acc.2 ++ [Ev.insertRow])) start).1.descRows =
    start.1.descRows := by
  induction l generalizing start with
  | nil => rfl
  | cons r rest ih =>
    simp only [List.foldl_cons]
    by_cases hmem : slicesBy.any (fun rs => rs.1 == r) = true
    · rw [if_pos hmem, ih]
    · rw [if_neg hmem, ih]
      rfl

/-- One `INSERT OR IGNORE` step, seen through a lookup. -/
theorem insert_into_description_lookup (db : DB) (pkg d name : String) :
    lookupA ((DS.insert_into_description db pkg d).descRows) name =
      (lookupA db.descRows name).or (if (pkg == name) = true then some d else none) := by
  unfold DS.insert_into_description
  split
  · rename_i hany
    by_cases hpn : (pkg == name) = true
    · have hname : pkg = name := eq_of_beq hpn
      subst hname
      obtain ⟨q, hq, hqe⟩ := List.any_eq_true.mp hany
      have hsome : (db.descRows.find? (fun r => r.1 == pkg)).isSome = true := by
        rw [List.find?_isSome]
        exact ⟨q, hq, hqe⟩
      unfold lookupA
      cases hf : db.descRows.find? (fun r => r.1 == pkg) with
      | none => rw [hf] at hsome; simp at hsome
      | some r => simp
    · simp [hpn, Option.or_none]
  · rename_i hany
    unfold lookupA
    rw [List.find?_append]
    cases hf : db.descRows.find? (fun r => r.1 == name) with
    | none =>
      simp only [Option.none_or, List.find?_singleton]
      by_cases hpn : (pkg == name) = true
      · simp [hpn]
      · simp [hpn]
    | some r =>
      simp

/-- Folding `INSERT OR IGNORE` rows: the first insert for a name wins,
later inserts for the same name are ignored. -/
theorem insert_desc_fold_lookup (ops : List (String × String)) :
    ∀ (db : DB) (name : String),
      lookupA ((ops.foldl (fun db (p : String × String) =>
        DS.insert_into_description db p.1 p.2) db).descRows) name =
      (lookupA db.descRows name).or
        ((ops.find? (fun p => p.1 == name)).map (fun p => p.2)) := by
  induction ops with
  | nil => intro db name; simp [Option.or_none]
  | cons p ops ih =>
    intro db name
    simp only [List.foldl_cons]
    rw [ih]
    rw [insert_into_description_lookup]
    rw [Option.or_assoc]
    congr 1
    rw [List.find?_cons]
    by_cases hpn : (p.1 == name) = true
    · simp [hpn]
    · simp [hpn]

/-- C10: in every written snapshot the description table holds each
package name at most once, the kept row for a name is always the first
one inserted (later inserts with the same name are ignored no matter
which release or package they came from), and on the concrete
two-release run with conflicting descriptions the first release's
description survives. -/
theorem C10_description_first_insert_wins :
    (∀ (decode : String → Except String Yaml)
      (slicesBy : List (UbuntuRelease × List (String × String)))
      (notesBy : List (UbuntuRelease × List (String × List Note)))
      (packagesBy : List (UbuntuRelease × List (String × Package)))
      (allReleases : List UbuntuRelease) (now url : String),
      (((DS.write_db decode slicesBy notesBy packagesBy allReleases now url).1.descRows).map
        Prod.fst).Nodup) ∧
    (∀ (ops : List (String × String)) (name : String),
      lookupA ((ops.foldl (fun db (p : String × String) =>
        DS.insert_into_description db p.1 p.2) DB.empty).descRows) name =
      (ops.find? (fun p => p.1 == name)).map (fun p => p.2)) ∧
    (c10run.1.descRows = [("pkg", "first description")] ∧ c10run.2.1 = none) := by
  refine ⟨?_, ?_, by decide, by decide⟩
  · intro decode slicesBy notesBy packagesBy allReleases now url
    unfold DS.write_db DS.db_connection_run
    simp only
    unfold DS.write_db_body
    split
    · rename_i db1 evs1 e hloop
      have h2 := writeReleasesLoop_desc_nodup decode notesBy packagesBy slicesBy DB.empty []
        (by simp [DB.empty])
      rw [hloop] at h2
      exact h2
    · rename_i db1 evs1 hloop
      have h2 := writeReleasesLoop_desc_nodup decode notesBy packagesBy slicesBy DB.empty []
        (by simp [DB.empty])
      rw [hloop] at h2
      simp only [DS.insert_into_meta]
      rw [fold_catalog_descRows, fold_release_descRows]
      exact h2
  · intro ops name
    rw [insert_desc_fold_lookup]
    simp [lookupA, DB.empty]

/-! ### Claim C4 -/

/-- The retry loop only appends to its trace, and every new entry
belongs to one of the attempts it was given. -/
theorem fetchGo_trace_shape (oracle : Nat → HttpOutcome × HttpOutcome) (attempts : List Nat) :
    ∀ resp le tr, ∃ new,
      (DS.fetchGo oracle attempts resp le tr).2.2 = tr ++ new ∧
      ∀ p ∈ new, p.1 ∈ attempts := by
  induction attempts with
  | nil => intro resp le tr; exact ⟨[], by simp [DS.fetchGo], by simp⟩
  | cons attempt rest ih =>
    intro resp le tr
    simp only [DS.fetchGo]
    cases h1 : (oracle attempt).1 with
    | exc m =>
      simp only []
      obtain ⟨new, hnew, hmem⟩ := ih resp (some m) (tr ++ [(attempt, Host.primary)])
      refine ⟨[(attempt, Host.primary)] ++ new, ?_, ?_⟩
      · rw [hnew, List.append_assoc]
      · intro p hp
        rcases List.mem_append.mp hp with h | h
        · rcases List.mem_singleton.mp h with rfl
          exact List.mem_cons_self _ _
        · exact List.mem_cons_of_mem _ (hmem p h)
    | resp r =>
      simp only []
      by_cases h200 : (r.status_code == 200) = true
      · rw [if_pos h200]
        refine ⟨[(attempt, Host.primary)], rfl, ?_⟩
        intro p hp
        rcases List.mem_singleton.mp hp with rfl
        exact List.mem_cons_self _ _
      · rw [if_neg h200]
        by_cases h404 : (r.status_code == 404) = true
        · rw [if_pos h404]
          cases h2 : (oracle attempt).2 with
          | exc m =>
            simp only []
            obtain ⟨new, hnew, hmem⟩ := ih (some r) (some m)
              (tr ++ [(attempt, Host.primary)] ++ [(attempt, Host.fallback)])
            refine ⟨[(attempt, Host.primary), (attempt, Host.fallback)] ++ new, ?_, ?_⟩
            · rw [hnew]
              simp [List.append_assoc]
            · intro p hp
              rcases List.mem_append.mp hp with h | h
              · rcases List.mem_cons.mp h with rfl | h
                · exact List.mem_cons_self _ _
                · rcases List.mem_singleton.mp h with rfl
                  exact List.mem_cons_self _ _
              · exact List.mem_cons_of_mem _ (hmem p h)
          | resp r2 =>
            simp only []
            by_cases h2200 : (r2.status_code == 200) = true
            · rw [if_pos h2200]
              refine ⟨[(attempt, Host.primary), (attempt, Host.fallback)], by simp, ?_⟩
              intro p hp
              rcases List.mem_cons.mp hp with rfl | h
              · exact List.mem_cons_self _ _
              · rcases List.mem_singleton.mp h with rfl
                exact List.mem_cons_self _ _
            · rw [if_neg h2200]
              obtain ⟨new, hnew, hmem⟩ := ih (some r2) le
                (tr ++ [(attempt, Host.primary)] ++ [(attempt, Host.fallback)])
              refine ⟨[(attempt, Host.primary), (attempt, Host.fallback)] ++ new, ?_, ?_⟩
              · rw [hnew]
                simp [List.append_assoc]
              · intro p hp
                rcases List.mem_append.mp hp with h | h
                · rcases List.mem_cons.mp h with rfl | h
                  · exact List.mem_cons_self _ _
                  · rcases List.mem_singleton.mp h with rfl
                    exact List.mem_cons_self _ _
                · exact List.mem_cons_of_mem _ (hmem p h)
        · rw [if_neg h404]
          obtain ⟨new, hnew, hmem⟩ := ih (some r) le (tr ++ [(attempt, Host.primary)])
          refine ⟨[(attempt, Host.primary)] ++ new, ?_, ?_⟩
          · rw [hnew, List.append_assoc]
          · intro p hp
            rcases List.mem_append.mp hp with h | h
            · rcases List.mem_singleton.mp h with rfl
              exact List.mem_cons_self _ _
            · exact List.mem_cons_of_mem _ (hmem p h)

/-- Trace entries only accumulate. -/
theorem fetchGo_trace_mono (oracle : Nat → HttpOutcome × HttpOutcome)
    (attempts : List Nat) (resp : Option Resp) (le : Option String)
    (tr : List (Nat × Host)) (p : Nat × Host) (hp : p ∈ tr) :
    p ∈ (DS.fetchGo oracle attempts resp le tr).2.2 := by
  obtain ⟨new, hnew, _⟩ := fetchGo_trace_shape oracle attempts resp le tr
  rw [hnew]
  exact List.mem_append_left _ hp

/-- Host equality computations. -/
theorem host_pp : (Host.primary == Host.primary) = true := rfl

/-- Host equality computations. -/
theorem host_fp : (Host.fallback == Host.primary) = false := rfl

/-- Each loop iteration issues exactly one primary request, so the
primary host is requested at most once per attempt in the budget. -/
theorem fetchGo_primary_count (oracle : Nat → HttpOutcome × HttpOutcome)
    (attempts : List Nat) :
    ∀ resp le tr,
      ((DS.fetchGo oracle attempts resp le tr).2.2).countP (fun p => p.2 == Host.primary) ≤
        tr.countP (fun p => p.2 == Host.primary) + attempts.length := by
  induction attempts with
  | nil => intro resp le tr; simp [DS.fetchGo]
  | cons attempt rest ih =>
    intro resp le tr
    simp only [DS.fetchGo]
    cases h1 : (oracle attempt).1 with
    | exc m =>
      simp only []
      have h := ih resp (some m) (tr ++ [(attempt, Host.primary)])
      simp only [List.countP_append, List.countP_cons, List.countP_nil, host_pp,
        if_true, List.length_cons] at h ⊢
      omega
    | resp r =>
      simp only []
      by_cases h200 : (r.status_code == 200) = true
      · rw [if_pos h200]
        simp only [List.countP_append, List.countP_cons, List.countP_nil, host_pp,
          if_true, List.length_cons]
        omega
      · rw [if_neg h200]
        by_cases h404 : (r.status_code == 404) = true
        · rw [if_pos h404]
          cases h2 : (oracle attempt).2 with
          | exc m =>
            simp only []
            have h := ih (some r) (some m)
              (tr ++ [(attempt, Host.primary)] ++ [(attempt, Host.fallback)])
            simp only [List.countP_append, List.countP_cons, List.countP_nil, host_pp,
              host_fp, if_true, Bool.false_eq_true, if_false, List.length_cons] at h ⊢
            omega
          | resp r2 =>
            simp only []
            by_cases h2200 : (r2.status_code == 200) = true
            · rw [if_pos h2200]
              simp only [List.countP_append, List.countP_cons, List.countP_nil, host_pp,
                host_fp, if_true, Bool.false_eq_true, if_false, List.length_cons]
              omega
            · rw [if_neg h2200]
              have h := ih (some r2) le
                (tr ++ [(attempt, Host.primary)] ++ [(attempt, Host.fallback)])
              simp only [List.countP_append, List.countP_cons, List.countP_nil, host_pp,
                host_fp, if_true, Bool.false_eq_true, if_false, List.length_cons] at h ⊢
              omega
        · rw [if_neg h404]
          have h := ih (some r) le (tr ++ [(attempt, Host.primary)])
          simp only [List.countP_append, List.countP_cons, List.countP_nil, host_pp,
            if_true, List.length_cons] at h ⊢
          omega

/-- The loop never issues the same (attempt, host) request twice: its
trace is duplicate-free (given distinct attempt numbers and a clean
starting trace). -/
theorem fetchGo_trace_nodup (oracle : Nat → HttpOutcome × HttpOutcome)
    (attempts : List Nat) :
    ∀ resp le tr, attempts.Nodup → (∀ p ∈ tr, p.1 ∉ attempts) → tr.Nodup →
      (DS.fetchGo oracle attempts resp le tr).2.2.Nodup := by
  induction attempts with
  | nil =>
    intro resp le tr _ _ h
    simpa [DS.fetchGo] using h
  | cons attempt rest ih =>
    intro resp le tr hnd hdisj htr
    rw [List.nodup_cons] at hnd
    obtain ⟨hnotin, hndr⟩ := hnd
    have hone : (tr ++ [(attempt, Host.primary)]).Nodup := by
      rw [List.nodup_append]
      refine ⟨htr, List.nodup_singleton _, ?_⟩
      intro p hp hp2
      rcases List.mem_singleton.mp hp2 with rfl
      exact (hdisj _ hp) (List.mem_cons_self _ _)
    have honedisj : ∀ p ∈ tr ++ [(attempt, Host.primary)], p.1 ∉ rest := by
      intro p hp
      rcases List.mem_append.mp hp with h | h
      · intro hc
        exact (hdisj p h) (List.mem_cons_of_mem _ hc)
      · rcases List.mem_singleton.mp h with rfl
        exact hnotin
    have htwo : (tr ++ [(attempt, Host.primary)] ++ [(attempt, Host.fallback)]).Nodup := by
      rw [List.nodup_append]
      refine ⟨hone, List.nodup_singleton _, ?_⟩
      intro p hp hp2
      rcases List.mem_singleton.mp hp2 with rfl
      rcases List.mem_append.mp hp with h | h
      · exact (hdisj _ h) (List.mem_cons_self _ _)
      · rcases List.mem_singleton.mp h with h2
        exact absurd (congrArg Prod.snd h2) (by simp)
    have htwodisj : ∀ p ∈ tr ++ [(attempt, Host.primary)] ++ [(attempt, Host.fallback)],
        p.1 ∉ rest := by
      intro p hp
      rcases List.mem_append.mp hp with h | h
      · exact honedisj p h
      · rcases List.mem_singleton.mp h with rfl
        exact hnotin
    simp only [DS.fetchGo]
    cases h1 : (oracle attempt).1 with
    | exc m =>
      simp only []
      exact ih resp (some m) _ hndr honedisj hone
    | resp r =>
      simp only []
      by_cases h200 : (r.status_code == 200) = true
      · rw [if_pos h200]
        exact hone
      · rw [if_neg h200]
        by_cases h404 : (r.status_code == 404) = true
        · rw [if_pos h404]
          cases h2 : (oracle attempt).2 with
          | exc m =>
            simp only []
            exact ih (some r) (some m) _ hndr htwodisj htwo
          | resp r2 =>
            simp only []
            by_cases h2200 : (r2.status_code == 200) = true
            · rw [if_pos h2200]
              exact htwo
            · rw [if_neg h2200]
              exact ih (some r2) le _ hndr htwodisj htwo
        · rw [if_neg h404]
          exact ih (some r) le _ hndr honedisj hone

/-- A fallback request only ever happens after the primary host answered
404 for that attempt. -/
theorem fetchGo_fallback_404 (oracle : Nat → HttpOutcome × HttpOutcome)
    (attempts : List Nat) :
    ∀ resp le tr a,
      (a, Host.fallback) ∈ (DS.fetchGo oracle attempts resp le tr).2.2 →
      (a, Host.fallback) ∈ tr ∨
        ∃ r, (oracle a).1 = HttpOutcome.resp r ∧ r.status_code = 404 := by
  induction attempts with
  | nil =>
    intro resp le tr a hmem
    left
    simpa [DS.fetchGo] using hmem
  | cons attempt rest ih =>
    intro resp le tr a hmem
    simp only [DS.fetchGo] at hmem
    cases h1 : (oracle attempt).1 with
    | exc m =>
      rw [h1] at hmem
      simp only [] at hmem
      rcases ih _ _ _ a hmem with h | h
      · rcases List.mem_append.mp h with h2 | h2
        · exact Or.inl h2
        · rcases List.mem_singleton.mp h2 with h3
          exact absurd (congrArg Prod.snd h3) (by simp)
      · exact Or.inr h
    | resp r0 =>
      rw [h1] at hmem
      simp only [] at hmem
      by_cases h200 : (r0.status_code == 200) = true
      · rw [if_pos h200] at hmem
        rcases List.mem_append.mp hmem with h2 | h2
        · exact Or.inl h2
        · rcases List.mem_singleton.mp h2 with h3
          exact absurd (congrArg Prod.snd h3) (by simp)
      · rw [if_neg h200] at hmem
        by_cases h404 : (r0.status_code == 404) = true
        · rw [if_pos h404] at hmem
          have hfb : (a, Host.fallback) ∈ tr ++ [(attempt, Host.primary)] ++
              [(attempt, Host.fallback)] → (a, Host.fallback) ∈ tr ∨
              ∃ r, (oracle a).1 = HttpOutcome.resp r ∧ r.status_code = 404 := by
            intro h
            rcases List.mem_append.mp h with h2 | h2
            · rcases List.mem_append.mp h2 with h3 | h3
              · exact Or.inl h3
              · rcases List.mem_singleton.mp h3 with h4
                exact absurd (congrArg Prod.snd h4) (by simp)
            · rcases List.mem_singleton.mp h2 with h4
              have ha : a = attempt := congrArg Prod.fst h4
              subst ha
              exact Or.inr ⟨r0, h1, eq_of_beq h404⟩
          cases h2 : (oracle attempt).2 with
          | exc m =>
            rw [h2] at hmem
            simp only [] at hmem
            rcases ih _ _ _ a hmem with h | h
            · exact hfb h
            · exact Or.inr h
          | resp r2 =>
            rw [h2] at hmem
            simp only [] at hmem
            by_cases h2200 : (r2.status_code == 200) = true
            · rw [if_pos h2200] at hmem
              exact hfb hmem
            · rw [if_neg h2200] at hmem
              rcases ih _ _ _ a hmem with h | h
              · exact hfb h
              · exact Or.inr h
        · rw [if_neg h404] at hmem
          rcases ih _ _ _ a hmem with h | h
          · rcases List.mem_append.mp h with h2 | h2
            · exact Or.inl h2
            · rcases List.mem_singleton.mp h2 with h3
              exact absurd (congrArg Prod.snd h3) (by simp)
          · exact Or.inr h

/-- Whenever the primary host of a consulted attempt answered 404, the
fallback host was consulted for that same attempt. -/
theorem fetchGo_404_fallback (oracle : Nat → HttpOutcome × HttpOutcome)
    (attempts : List Nat) :
    ∀ resp le tr a r,
      (a, Host.primary) ∈ (DS.fetchGo oracle attempts resp le tr).2.2 →
      (a, Host.primary) ∉ tr →
      (oracle a).1 = HttpOutcome.resp r → r.status_code = 404 →
      (a, Host.fallback) ∈ (DS.fetchGo oracle attempts resp le tr).2.2 := by
  induction attempts with
  | nil =>
    intro resp le tr a r hmem hnin _ _
    simp only [DS.fetchGo] at hmem
    exact absurd hmem hnin
  | cons attempt rest ih =>
    intro resp le tr a r hmem hnin hor h404
    by_cases ha : a = attempt
    · subst ha
      have h200 : (r.status_code == 200) = false := by
        rw [h404]
        rfl
      have h404b : (r.status_code == 404) = true := by
        rw [h404]
        rfl
      simp only [DS.fetchGo, hor] at hmem ⊢
      rw [if_neg (show ¬ (r.status_code == 200) = true by
        rw [h200]; exact Bool.false_ne_true)] at hmem ⊢
      rw [if_pos h404b] at hmem ⊢
      cases h2 : (oracle a).2 with
      | exc m =>
        simp only [] at hmem ⊢
        apply fetchGo_trace_mono
        exact List.mem_append_right _ (List.mem_singleton_self _)
      | resp r2 =>
        rw [h2] at hmem
        simp only [] at hmem ⊢
        by_cases h2200 : (r2.status_code == 200) = true
        · rw [if_pos h2200]
          exact List.mem_append_right _ (List.mem_singleton_self _)
        · rw [if_neg h2200]
          apply fetchGo_trace_mono
          exact List.mem_append_right _ (List.mem_singleton_self _)
    · cases h1 : (oracle attempt).1 with
      | exc m =>
        simp only [DS.fetchGo, h1] at hmem ⊢
        refine ih _ _ _ a r hmem ?_ hor h404
        intro hc
        rcases List.mem_append.mp hc with h | h
        · exact hnin h
        · rcases List.mem_singleton.mp h with h2
          exact ha (congrArg Prod.fst h2)
      | resp r0 =>
        simp only [DS.fetchGo, h1] at hmem ⊢
        by_cases h200 : (r0.status_code == 200) = true
        · rw [if_pos h200] at hmem ⊢
          rcases List.mem_append.mp hmem with h | h
          · exact absurd h hnin
          · rcases List.mem_singleton.mp h with h2
            exact absurd (congrArg Prod.fst h2) ha
        · rw [if_neg h200] at hmem ⊢
          by_cases h404b : (r0.status_code == 404) = true
          · rw [if_pos h404b] at hmem ⊢
            have hnin2 : (a, Host.primary) ∉ tr ++ [(attempt, Host.primary)] ++
                [(attempt, Host.fallback)] := by
              intro hc
              rcases List.mem_append.mp hc with h | h
              · rcases List.mem_append.mp h with h2 | h2
                · exact hnin h2
                · rcases List.mem_singleton.mp h2 with h3
                  exact ha (congrArg Prod.fst h3)
              · rcases List.mem_singleton.mp h with h3
                exact absurd (congrArg Prod.snd h3) (by simp)
            cases h2 : (oracle attempt).2 with
            | exc m =>
              rw [h2] at hmem
              simp only [] at hmem ⊢
              exact ih _ _ _ a r hmem hnin2 hor h404
            | resp r2 =>
              rw [h2] at hmem
              simp only [] at hmem ⊢
              by_cases h2200 : (r2.status_code == 200) = true
              · rw [if_pos h2200] at hmem ⊢
                rcases List.mem_append.mp hmem with h | h
                · rcases List.mem_append.mp h with h3 | h3
                  · exact absurd h3 hnin
                  · rcases List.mem_singleton.mp h3 with h4
                    exact absurd (congrArg Prod.fst h4) ha
                · rcases List.mem_singleton.mp h with h3
                  exact absurd (congrArg Prod.snd h3) (by simp)
              · rw [if_neg h2200] at hmem ⊢
                exact ih _ _ _ a r hmem hnin2 hor h404
          · rw [if_neg h404b] at hmem ⊢
            refine ih _ _ _ a r hmem ?_ hor h404
            intro hc
            rcases List.mem_append.mp hc with h | h
            · exact hnin h
            · rcases List.mem_singleton.mp h with h2
              exact ha (congrArg Prod.fst h2)

/-- Whenever some consulted request returned 200, the loop breaks with
exactly that response. -/
theorem fetchGo_200_result (oracle : Nat → HttpOutcome × HttpOutcome) (attempts : List Nat) :
    ∀ resp le tr a hh r,
      (a, hh) ∈ (DS.fetchGo oracle attempts resp le tr).2.2 →
      (a, hh) ∉ tr →
      outcomeAt oracle (a, hh) = HttpOutcome.resp r → r.status_code = 200 →
      (DS.fetchGo oracle attempts resp le tr).1 = some r := by
  induction attempts with
  | nil =>
    intro resp le tr a hh r hmem hnin _ _
    simp only [DS.fetchGo] at hmem
    exact absurd hmem hnin
  | cons attempt rest ih =>
    intro resp le tr a hh r hmem hnin hout h200r
    simp only [DS.fetchGo] at hmem ⊢
    cases h1 : (oracle attempt).1 with
    | exc m =>
      rw [h1] at hmem
      simp only [] at hmem ⊢
      refine ih _ _ _ a hh r hmem ?_ hout h200r
      intro hc
      rcases List.mem_append.mp hc with h | h
      · exact hnin h
      · rcases List.mem_singleton.mp h with h4
        rw [h4] at hout
        simp only [outcomeAt] at hout
        rw [h1] at hout
        simp at hout
    | resp r0 =>
      rw [h1] at hmem
      simp only [] at hmem ⊢
      by_cases h200 : (r0.status_code == 200) = true
      · rw [if_pos h200] at hmem ⊢
        simp only []
        rcases List.mem_append.mp hmem with h | h
        · exact absurd h hnin
        · rcases List.mem_singleton.mp h with h4
          rw [h4] at hout
          simp only [outcomeAt] at hout
          rw [h1] at hout
          injection hout with hout
          rw [hout]
      · rw [if_neg h200] at hmem ⊢
        by_cases h404 : (r0.status_code == 404) = true
        · rw [if_pos h404] at hmem ⊢
          cases h2 : (oracle attempt).2 with
          | exc m =>
            rw [h2] at hmem
            simp only [] at hmem ⊢
            refine ih _ _ _ a hh r hmem ?_ hout h200r
            intro hc
            rcases List.mem_append.mp hc with h | h
            · rcases List.mem_append.mp h with h3 | h3
              · exact hnin h3
              · rcases List.mem_singleton.mp h3 with h4
                rw [h4] at hout
                simp only [outcomeAt] at hout
                rw [h1] at hout
                injection hout with hout
                rw [hout] at h200
                exact h200 (by rw [h200r]; rfl)
            · rcases List.mem_singleton.mp h with h4
              rw [h4] at hout
              simp only [outcomeAt] at hout
              rw [h2] at hout
              simp at hout
          | resp r2 =>
            rw [h2] at hmem
            simp only [] at hmem ⊢
            by_cases h2200 : (r2.status_code == 200) = true
            · rw [if_pos h2200] at hmem ⊢
              simp only []
              rcases List.mem_append.mp hmem with h | h
              · rcases List.mem_append.mp h with h3 | h3
                · exact absurd h3 hnin
                · rcases List.mem_singleton.mp h3 with h4
                  rw [h4] at hout
                  simp only [outcomeAt] at hout
                  rw [h1] at hout
                  injection hout with hout
                  rw [hout] at h200
                  exact absurd (by rw [h200r]; rfl) h200
              · rcases List.mem_singleton.mp h with h4
                rw [h4] at hout
                simp only [outcomeAt] at hout
                rw [h2] at hout
                injection hout with hout
                rw [hout]
            · rw [if_neg h2200] at hmem ⊢
              refine ih _ _ _ a hh r hmem ?_ hout h200r
              intro hc
              rcases List.mem_append.mp hc with h | h
              · rcases List.mem_append.mp h with h3 | h3
                · exact hnin h3
                · rcases List.mem_singleton.mp h3 with h4
                  rw [h4] at hout
                  simp only [outcomeAt] at hout
                  rw [h1] at hout
                  injection hout with hout
                  rw [hout] at h200
                  exact h200 (by rw [h200r]; rfl)
              · rcases List.mem_singleton.mp h with h4
                rw [h4] at hout
                simp only [outcomeAt] at hout
                rw [h2] at hout
                injection hout with hout
                rw [hout] at h2200
                exact h2200 (by rw [h200r]; rfl)
        · rw [if_neg h404] at hmem ⊢
          refine ih _ _ _ a hh r hmem ?_ hout h200r
          intro hc
          rcases List.mem_append.mp hc with h | h
          · exact hnin h
          · rcases List.mem_singleton.mp h with h4
            rw [h4] at hout
            simp only [outcomeAt] at hout
            rw [h1] at hout
            injection hout with hout
            rw [hout] at h200
            exact h200 (by rw [h200r]; rfl)

/-- When every consulted request fails (non-200 response or exception),
the loop consults the primary host on every attempt and never ends up
holding a 200 response. -/
theorem fetchGo_all_fail (oracle : Nat → HttpOutcome × HttpOutcome) (attempts : List Nat) :
    ∀ resp le tr,
      (∀ a hh r, (a, hh) ∈ (DS.fetchGo oracle attempts resp le tr).2.2 →
        outcomeAt oracle (a, hh) = HttpOutcome.resp r → r.status_code ≠ 200) →
      (∀ r0, resp = some r0 → r0.status_code ≠ 200) →
      (∀ r1, (DS.fetchGo oracle attempts resp le tr).1 = some r1 → r1.status_code ≠ 200) ∧
      (∀ b ∈ attempts, (b, Host.primary) ∈ (DS.fetchGo oracle attempts resp le tr).2.2) := by
  induction attempts with
  | nil =>
    intro resp le tr _ hresp
    constructor
    · intro r1 h
      simp only [DS.fetchGo] at h
      exact hresp r1 h
    · intro b hb
      simp at hb
  | cons attempt rest ih =>
    intro resp le tr hcons hresp
    simp only [DS.fetchGo] at hcons ⊢
    cases h1 : (oracle attempt).1 with
    | exc m =>
      rw [h1] at hcons
      simp only [] at hcons ⊢
      have hres := ih _ _ _ hcons hresp
      refine ⟨hres.1, ?_⟩
      intro b hb
      rcases List.mem_cons.mp hb with rfl | hb2
      · apply fetchGo_trace_mono
        exact List.mem_append_right _ (List.mem_singleton_self _)
      · exact hres.2 b hb2
    | resp r0 =>
      rw [h1] at hcons
      simp only [] at hcons ⊢
      by_cases h200 : (r0.status_code == 200) = true
      · exfalso
        rw [if_pos h200] at hcons
        exact (hcons attempt Host.primary r0
          (List.mem_append_right _ (List.mem_singleton_self _))
          (by simp [outcomeAt, h1])) (eq_of_beq h200)
      · rw [if_neg h200] at hcons ⊢
        have hresp0 : ∀ r1, (some r0 : Option Resp) = some r1 → r1.status_code ≠ 200 := by
          intro r1 h hs
          injection h with h
          subst h
          exact h200 (by rw [hs]; rfl)
        by_cases h404 : (r0.status_code == 404) = true
        · rw [if_pos h404] at hcons ⊢
          cases h2 : (oracle attempt).2 with
          | exc m =>
            rw [h2] at hcons
            simp only [] at hcons ⊢
            have hres := ih _ _ _ hcons hresp0
            refine ⟨hres.1, ?_⟩
            intro b hb
            rcases List.mem_cons.mp hb with rfl | hb2
            · apply fetchGo_trace_mono
              exact List.mem_append_left _ (List.mem_append_right _ (List.mem_singleton_self _))
            · exact hres.2 b hb2
          | resp r2 =>
            rw [h2] at hcons
            simp only [] at hcons ⊢
            by_cases h2200 : (r2.status_code == 200) = true
            · exfalso
              rw [if_pos h2200] at hcons
              exact (hcons attempt Host.fallback r2
                (List.mem_append_right _ (List.mem_singleton_self _))
                (by simp [outcomeAt, h2])) (eq_of_beq h2200)
            · rw [if_neg h2200] at hcons ⊢
              have hresp2 : ∀ r1, (some r2 : Option Resp) = some r1 → r1.status_code ≠ 200 := by
                intro r1 h hs
                injection h with h
                subst h
                exact h2200 (by rw [hs]; rfl)
              have hres := ih _ _ _ hcons hresp2
              refine ⟨hres.1, ?_⟩
              intro b hb
              rcases List.mem_cons.mp hb with rfl | hb2
              · apply fetchGo_trace_mono
                exact List.mem_append_left _ (List.mem_append_right _ (List.mem_singleton_self _))
              · exact hres.2 b hb2
        · rw [if_neg h404] at hcons ⊢
          have hres := ih _ _ _ hcons hresp0
          refine ⟨hres.1, ?_⟩
          intro b hb
          rcases List.mem_cons.mp hb with rfl | hb2
          · apply fetchGo_trace_mono
            exact List.mem_append_right _ (List.mem_singleton_self _)
          · exact hres.2 b hb2

/-- C4: the manifest fetch requests the primary host on at most 3
attempts (numbered 1..3, no request repeated); the fallback host is
consulted exactly for attempts whose primary answer was HTTP 404 (and
then the attempt still counts as failed unless the fallback returns
200); if every consulted request fails, all three attempts are used and
the whole fetch raises; and if any consulted request returns 200, the
fetch succeeds with exactly that response — in particular a primary 404
followed by a fallback 200 succeeds with the fallback content. -/
theorem C4_manifest_fetch_retry_fallback :
    (∀ oracle, (∀ p ∈ DS.fetchTrace oracle, p.1 = 1 ∨ p.1 = 2 ∨ p.1 = 3) ∧
      (DS.fetchTrace oracle).countP (fun p => p.2 == Host.primary) ≤ 3 ∧
      (DS.fetchTrace oracle).Nodup) ∧
    (∀ oracle a, ((a, Host.fallback) ∈ DS.fetchTrace oracle →
        ∃ r, (oracle a).1 = HttpOutcome.resp r ∧ r.status_code = 404) ∧
      (∀ r, (a, Host.primary) ∈ DS.fetchTrace oracle →
        (oracle a).1 = HttpOutcome.resp r → r.status_code = 404 →
        (a, Host.fallback) ∈ DS.fetchTrace oracle)) ∧
    (∀ oracle,
      (∀ a hh r, (a, hh) ∈ DS.fetchTrace oracle →
        outcomeAt oracle (a, hh) = HttpOutcome.resp r → r.status_code ≠ 200) →
      (∃ e, DS.getPackagesResponse oracle = .error e) ∧
      ∀ b ∈ ([1, 2, 3] : List Nat), (b, Host.primary) ∈ DS.fetchTrace oracle) ∧
    (∀ oracle a hh r, (a, hh) ∈ DS.fetchTrace oracle →
      outcomeAt oracle (a, hh) = HttpOutcome.resp r → r.status_code = 200 →
      DS.getPackagesResponse oracle = .ok r) ∧
    (∀ oracle release component repo c1 c2,
      (oracle 1).1 = HttpOutcome.resp ⟨404, c1⟩ →
      (oracle 1).2 = HttpOutcome.resp ⟨200, c2⟩ →
      DS.get_packages oracle release component repo =
        .ok (DS.packagesFromContent c2 release component repo)) := by
  refine ⟨?_, ?_, ?_, ?_, ?_⟩
  · intro oracle
    refine ⟨?_, ?_, ?_⟩
    · intro p hp
      obtain ⟨new, hnew, hmem⟩ := fetchGo_trace_shape oracle [1, 2, 3] none none []
      have hp2 : p ∈ new := by
        have : DS.fetchTrace oracle = new := by
          unfold DS.fetchTrace DS.fetchLoop
          rw [hnew]
          simp
        rwa [this] at hp
      simpa using hmem p hp2
    · have := fetchGo_primary_count oracle [1, 2, 3] none none []
      simpa using this
    · exact fetchGo_trace_nodup oracle [1, 2, 3] none none [] (by decide) (by simp)
        List.nodup_nil
  · intro oracle a
    constructor
    · intro hmem
      rcases fetchGo_fallback_404 oracle [1, 2, 3] none none [] a hmem with h | h
      · simp at h
      · exact h
    · intro r hmem hor h404
      exact fetchGo_404_fallback oracle [1, 2, 3] none none [] a r hmem (by simp) hor h404
  · intro oracle hcons
    have hall := fetchGo_all_fail oracle [1, 2, 3] none none [] hcons
      (by intro r0 h; exact absurd h (by simp))
    constructor
    · unfold DS.getPackagesResponse
      cases hfl : DS.fetchLoop oracle with
      | mk response rest2 =>
        obtain ⟨le2, tr2⟩ := rest2
        cases response with
        | none => exact ⟨_, rfl⟩
        | some r1 =>
          have hne : r1.status_code ≠ 200 := by
            apply hall.1 r1
            show (DS.fetchGo oracle [1, 2, 3] none none []).1 = some r1
            rw [show DS.fetchGo oracle [1, 2, 3] none none [] = DS.fetchLoop oracle from rfl,
              hfl]
          simp only []
          rw [if_neg (show ¬ (r1.status_code == 200) = true from
            fun hb => hne (eq_of_beq hb))]
          exact ⟨_, rfl⟩
    · exact hall.2
  · intro oracle a hh r hmem hout h200
    have hres := fetchGo_200_result oracle [1, 2, 3] none none [] a hh r hmem (by simp)
      hout h200
    unfold DS.getPackagesResponse
    cases hfl : DS.fetchLoop oracle with
    | mk response rest2 =>
      obtain ⟨le2, tr2⟩ := rest2
      have hresp : response = some r := by
        have h2 : (DS.fetchLoop oracle).1 = some r := hres
        rw [hfl] at h2
        exact h2
      subst hresp
      simp only []
      rw [if_pos (show (r.status_code == 200) = true by rw [h200]; rfl)]
  · intro oracle release component repo c1 c2 hp hf
    have hloop : DS.fetchLoop oracle =
        (some ⟨200, c2⟩, none, [(1, Host.primary), (1, Host.fallback)]) := by
      unfold DS.fetchLoop
      simp [DS.fetchGo, hp, hf]
    simp [DS.get_packages, DS.getPackagesResponse, hloop, Except.map]

/-- C4 witness: the spec's 404-then-200 scenario on a concrete oracle —
the fetch succeeds with packages parsed from the fallback content, and
the consulted fallback request is justified by a primary 404. -/
theorem C4_witness :
    DS.get_packages c4oracle relNoble "main" "" =
      .ok (DS.packagesFromContent "fallback content" relNoble "main" "") ∧
    (∃ r, (c4oracle 1).1 = HttpOutcome.resp r ∧ r.status_code = 404) := by
  constructor
  · exact C4_manifest_fetch_retry_fallback.2.2.2.2 c4oracle relNoble "main" ""
      "primary content" "fallback content" rfl rfl
  · exact (C4_manifest_fetch_retry_fallback.2.1 c4oracle 1).1 (by decide)
